import Mathlib

/-!
Verification of the Michael–Scott MPMC queue, hazard-pointer reclamation
engine and `jthread_pool` of this repository (the free-list + leaky-singleton
variant, which the specification adopts as the intended implementation).

The embedding is a sequential (single-thread) shallow embedding:
* the heap of queue cells is an association list from nonzero addresses to
  cells; the null pointer is address `0`;
* each atomic load returns the current value of the addressed location, so
  every revalidation (`t == tail_.load()` …) in the C++ compares equal and
  every CAS whose expected value was just loaded succeeds — the retry
  branches of the loops remain in the definitions, guarded by fuel;
* stores to the thread's two hazard slots and every dereference of a cell
  are recorded as events in an instruction trace, so that the hazard
  discipline (publish before dereference, revalidate, clear on exit) is a
  checkable property of the trace.
-/

/-- A queue cell (`ms_queue<T>::node`): an atomic `next` pointer (address,
`0` = `nullptr`) and an `std::optional<T>` payload (the sentinel holds
`none`). -/
structure Cell (T : Type) where
  next : Nat
  value : Option T
deriving DecidableEq

/-- Reads the cell stored at address `a` (`nullptr` dereference or a wild
address yields `none`, i.e. the model is stuck). -/
def getCell {T : Type} (mem : List (Nat × Cell T)) (a : Nat) : Option (Cell T) :=
  (mem.find? (fun p => p.1 == a)).map Prod.snd

/-- Overwrites the cell stored at address `a`. -/
def setCell {T : Type} (mem : List (Nat × Cell T)) (a : Nat) (c : Cell T) :
    List (Nat × Cell T) :=
  mem.map (fun p => if p.1 == a then (a, c) else p)

/-- Value of the `next` field of the cell at address `a`. -/
def getNext {T : Type} (mem : List (Nat × Cell T)) (a : Nat) : Option Nat :=
  (getCell mem a).map Cell.next

/-- Payload slot of the cell at address `a`. -/
def getValue {T : Type} (mem : List (Nat × Cell T)) (a : Nat) : Option (Option T) :=
  (getCell mem a).map Cell.value

/-- State of one `ms_queue<T>`: the heap of its cells, the `head_` and
`tail_` atomic pointers, and the next fresh address (the allocator). -/
structure ms_queue (T : Type) where
  mem : List (Nat × Cell T)
  head_ : Nat
  tail_ : Nat
  nextAlloc : Nat
deriving DecidableEq

/-- Instruction-trace events of a queue operation.  `pub b a` is a store of
address `a` into the calling thread's hazard slot (`b = false` for `slot0`,
`b = true` for `slot1`; `a = 0` clears the slot).  `derefNext a`,
`derefValue a` and `casNext a` dereference the cell at `a`; `loadHead` /
`loadTail` / `casHead` / `casTail` touch only the queue's own atomic
pointers. -/
inductive Ev where
  | loadHead (a : Nat)
  | loadTail (a : Nat)
  | pub (s1 : Bool) (a : Nat)
  | derefNext (a : Nat)
  | casNext (a : Nat)
  | derefValue (a : Nat)
  | casHead
  | casTail
deriving DecidableEq

/-- Constructor `ms_queue()`: allocate a dummy cell with empty payload and
point both `head_` and `tail_` at it.  Addresses start at 1 (0 is null). -/
def ms_queue.init {T : Type} : ms_queue T :=
  { mem := [(1, ⟨0, none⟩)], head_ := 1, tail_ := 1, nextAlloc := 2 }

/-- The CAS loop of `ms_queue::enqueue`, after the new cell `naddr` has been
allocated.  One iteration: load `tail_` into `t`; publish `t` in `slot0`;
revalidate `t == tail_.load()` (sequentially it compares equal); read
`t->next`; publish it in `slot1`; revalidate `tail_` and `t->next` again
(both compare equal).  If `next` is null, the CAS on `t->next` and the
swing of `tail_` both succeed, the slots are cleared and the loop returns;
otherwise the lagging `tail_` is helped forward and the loop retries. -/
def enqueueLoop {T : Type} (s : ms_queue T) (naddr : Nat) :
    Nat → Option (ms_queue T × List Ev)
  | 0 => none
  | fuel + 1 =>
    let t := s.tail_
    match getCell s.mem t with
    | none => none
    | some tc =>
      let next := tc.next
      let evs := [Ev.loadTail t, Ev.pub false t, Ev.loadTail t, Ev.derefNext t,
                  Ev.pub true next, Ev.loadTail t, Ev.derefNext t, Ev.loadTail t]
      if next == 0 then
        let s1 : ms_queue T :=
          { s with mem := setCell s.mem t { tc with next := naddr }, tail_ := naddr }
        some (s1, evs ++ [Ev.casNext t, Ev.casTail, Ev.pub false 0, Ev.pub true 0])
      else
        match enqueueLoop { s with tail_ := next } naddr fuel with
        | none => none
        | some (s2, evs2) =>
          some (s2, evs ++ [Ev.casTail, Ev.pub true 0, Ev.pub false 0, Ev.pub true 0] ++ evs2)

/-- `ms_queue::enqueue(T v)`: allocate a new cell holding `v` with null
`next`, then run the linking loop. -/
def ms_queue.enqueue {T : Type} (s : ms_queue T) (v : T) : Option (ms_queue T × List Ev) :=
  let naddr := s.nextAlloc
  let s0 : ms_queue T :=
    { s with mem := s.mem ++ [(naddr, ⟨0, some v⟩)], nextAlloc := naddr + 1 }
  enqueueLoop s0 naddr (s0.mem.length + 1)

/-- Result of `ms_queue::try_dequeue(T& out)`: the boolean return value, the
final contents of `out`, the queue state after the call, the address handed
to `retire_or_delete_` (if any) and the instruction trace. -/
structure DeqResult (T : Type) where
  ok : Bool
  out : T
  state : ms_queue T
  retired : Option Nat
  trace : List Ev
deriving DecidableEq

/-- The loop of `ms_queue::try_dequeue`.  One iteration: load `head_` into
`h`; publish `h` in `slot0`; revalidate `head_`; load `tail_` and
`h->next`; publish `next` in `slot1`; revalidate `head_` and `h->next`
(sequentially all revalidations compare equal).  If `h == t`: an observed
null `next` means empty (clear slots, return `false`, `out` untouched),
otherwise help the lagging tail and retry.  If `h != t` and `next` is
non-null: the CAS advancing `head_` succeeds, the payload is moved out of
`next` and reset, the slots are cleared, and the old head `h` is retired. -/
def dequeueLoop {T : Type} (s : ms_queue T) (out : T) : Nat → Option (DeqResult T)
  | 0 => none
  | fuel + 1 =>
    let h := s.head_
    match getCell s.mem h with
    | none => none
    | some hc =>
      let t := s.tail_
      let next := hc.next
      let evs := [Ev.loadHead h, Ev.pub false h, Ev.loadHead h, Ev.loadTail t,
                  Ev.derefNext h, Ev.pub true next, Ev.loadHead h, Ev.derefNext h]
      if h == t then
        if next == 0 then
          some ⟨false, out, s, none, evs ++ [Ev.pub false 0, Ev.pub true 0]⟩
        else
          match dequeueLoop { s with tail_ := next } out fuel with
          | none => none
          | some r =>
            some { r with trace := evs ++ [Ev.casTail, Ev.pub false 0, Ev.pub true 0] ++ r.trace }
      else
        if next == 0 then
          match dequeueLoop s out fuel with
          | none => none
          | some r =>
            some { r with trace := evs ++ [Ev.pub false 0, Ev.pub true 0] ++ r.trace }
        else
          match getCell s.mem next with
          | none => none
          | some nc =>
            match nc.value with
            | none => none
            | some v =>
              let s1 : ms_queue T :=
                { s with mem := setCell s.mem next { nc with value := none }, head_ := next }
              some ⟨true, v, s1, some h,
                    evs ++ [Ev.casHead, Ev.derefValue next, Ev.pub false 0, Ev.pub true 0]⟩

/-- `ms_queue::try_dequeue(T& out)`. -/
def ms_queue.try_dequeue {T : Type} (s : ms_queue T) (out : T) : Option (DeqResult T) :=
  dequeueLoop s out (s.mem.length + 1)

/-- `ms_queue::empty()`: load `head_`, publish it in `slot0`, revalidate
`head_` (sequentially it compares equal, so the conservative `false` branch
is not taken), read `h->next` with acquire, clear `slot0` and return whether
`next` was null.  The queue state is returned unchanged — the method writes
nothing but the hazard slot. -/
def ms_queue.empty {T : Type} (s : ms_queue T) : Option (Bool × ms_queue T × List Ev) :=
  let h := s.head_
  match getCell s.mem h with
  | none => none
  | some hc =>
    some (hc.next == 0, s,
          [Ev.loadHead h, Ev.pub false h, Ev.loadHead h, Ev.derefNext h, Ev.pub false 0])

/-! ### Representation predicate

`cells` lists the value-bearing cells that follow the sentinel, in list
order, with their payloads; the spine of the queue is
`head_ :: cells.map Prod.fst`. -/

/-- The chain of value cells `cells` hangs off the cell at `a`: each cell's
`next` points to the following one, each carries its payload, the last one
has null `next`, and `tl` (the queue's `tail_`) points to the last cell of
the chain (`a` itself when the chain is empty). -/
def chainFrom {T : Type} (mem : List (Nat × Cell T)) (tl : Nat) :
    Nat → List (Nat × T) → Prop
  | a, [] => getNext mem a = some 0 ∧ tl = a
  | a, (b, v) :: rest =>
    getNext mem a = some b ∧ getValue mem b = some (some v) ∧ chainFrom mem tl b rest

instance chainFromDec {T : Type} [DecidableEq T] (mem : List (Nat × Cell T)) (tl : Nat) :
    (a : Nat) → (cells : List (Nat × T)) → Decidable (chainFrom mem tl a cells)
  | _, [] => inferInstanceAs (Decidable (_ ∧ _))
  | _, (b, _) :: rest =>
    have : Decidable (chainFrom mem tl b rest) := chainFromDec mem tl b rest
    inferInstanceAs (Decidable (_ ∧ _ ∧ _))

/-- Representation invariant of a (sequentially) reachable queue state:
the sentinel at `head_` has an empty payload, the value cells hang off it
in order with `tail_` at the last cell, the spine addresses are distinct,
nonzero and below the allocation bound, and the heap's addresses are
distinct, nonzero and below the allocation bound. -/
def QRep {T : Type} (s : ms_queue T) (cells : List (Nat × T)) : Prop :=
  getValue s.mem s.head_ = some none ∧
  chainFrom s.mem s.tail_ s.head_ cells ∧
  (s.head_ :: cells.map Prod.fst).Nodup ∧
  (∀ a ∈ s.head_ :: cells.map Prod.fst, a ≠ 0 ∧ a < s.nextAlloc) ∧
  (s.mem.map Prod.fst).Nodup ∧
  (∀ a ∈ s.mem.map Prod.fst, a ≠ 0 ∧ a < s.nextAlloc)

instance {T : Type} [DecidableEq T] (s : ms_queue T) (cells : List (Nat × T)) :
    Decidable (QRep s cells) :=
  inferInstanceAs (Decidable (_ ∧ _ ∧ _ ∧ _ ∧ _ ∧ _))

example : QRep (ms_queue.init : ms_queue Nat) [] := by decide

example :
    (ms_queue.init : ms_queue Nat).enqueue 7 =
      some ({ mem := [(1, ⟨2, none⟩), (2, ⟨0, some 7⟩)],
              head_ := 1, tail_ := 2, nextAlloc := 3 },
            [Ev.loadTail 1, Ev.pub false 1, Ev.loadTail 1, Ev.derefNext 1,
             Ev.pub true 0, Ev.loadTail 1, Ev.derefNext 1, Ev.loadTail 1,
             Ev.casNext 1, Ev.casTail, Ev.pub false 0, Ev.pub true 0]) := by
  decide

/-! ### Heap access lemmas -/

theorem getCell_cons {T : Type} (q : Nat × Cell T) (mem : List (Nat × Cell T)) (x : Nat) :
    getCell (q :: mem) x = if q.1 = x then some q.2 else getCell mem x := by
  by_cases h : q.1 = x <;> simp [getCell, List.find?_cons, h]

theorem getCell_mem_fst {T : Type} {mem : List (Nat × Cell T)} {a : Nat} {c : Cell T}
    (h : getCell mem a = some c) : a ∈ mem.map Prod.fst := by
  unfold getCell at h
  cases hf : mem.find? (fun p => p.1 == a) with
  | none => rw [hf] at h; simp at h
  | some p =>
    have hp : p.1 = a := by simpa using List.find?_some hf
    have hm := List.mem_of_find?_eq_some hf
    exact hp ▸ List.mem_map.2 ⟨p, hm, rfl⟩

theorem getCell_append_left {T : Type} {mem : List (Nat × Cell T)} {a b : Nat} {c : Cell T}
    (hab : a ≠ b) : getCell (mem ++ [(b, c)]) a = getCell mem a := by
  induction mem with
  | nil => simp [getCell_cons, getCell, Ne.symm hab]
  | cons p mem ih => rw [List.cons_append, getCell_cons, getCell_cons, ih]

theorem getCell_append_right {T : Type} {mem : List (Nat × Cell T)} {b : Nat} {c : Cell T}
    (hb : b ∉ mem.map Prod.fst) : getCell (mem ++ [(b, c)]) b = some c := by
  induction mem with
  | nil => simp [getCell_cons, getCell]
  | cons p mem ih =>
    simp only [List.map_cons, List.mem_cons] at hb
    push_neg at hb
    rw [List.cons_append, getCell_cons, if_neg (fun h => hb.1 h.symm), ih hb.2]

theorem setCell_cons {T : Type} (p : Nat × Cell T) (mem : List (Nat × Cell T))
    (a : Nat) (c : Cell T) :
    setCell (p :: mem) a c = (if p.1 = a then (a, c) else p) :: setCell mem a c := by
  by_cases h : p.1 = a <;> simp [setCell, h]

theorem getCell_setCell_ne {T : Type} {mem : List (Nat × Cell T)} {a x : Nat} {c : Cell T}
    (hxa : x ≠ a) : getCell (setCell mem a c) x = getCell mem x := by
  induction mem with
  | nil => rfl
  | cons p mem ih =>
    rw [setCell_cons, getCell_cons, getCell_cons]
    by_cases hp : p.1 = a
    · rw [if_pos hp, if_neg (by simpa using Ne.symm hxa), if_neg (fun h => hxa (hp ▸ h.symm)), ih]
    · rw [if_neg hp, ih]

theorem getCell_setCell_self {T : Type} {mem : List (Nat × Cell T)} {a : Nat} {c : Cell T}
    (ha : a ∈ mem.map Prod.fst) : getCell (setCell mem a c) a = some c := by
  induction mem with
  | nil => cases ha
  | cons p mem ih =>
    rw [setCell_cons, getCell_cons]
    by_cases hp : p.1 = a
    · rw [if_pos hp]
      simp
    · rw [if_neg hp, if_neg hp]
      simp only [List.map_cons, List.mem_cons] at ha
      rcases ha with ha | ha
      · exact absurd ha.symm hp
      · exact ih ha

theorem setCell_map_fst {T : Type} (mem : List (Nat × Cell T)) (a : Nat) (c : Cell T) :
    (setCell mem a c).map Prod.fst = mem.map Prod.fst := by
  induction mem with
  | nil => rfl
  | cons p mem ih =>
    rw [setCell_cons, List.map_cons, List.map_cons, ih]
    by_cases hp : p.1 = a
    · rw [if_pos hp]
      simp [hp]
    · rw [if_neg hp]

theorem setCell_length {T : Type} (mem : List (Nat × Cell T)) (a : Nat) (c : Cell T) :
    (setCell mem a c).length = mem.length := by
  simp [setCell]

/-! ### Chain lemmas -/

theorem chainFrom_nil {T : Type} (mem : List (Nat × Cell T)) (tl a : Nat) :
    chainFrom mem tl a [] ↔ getNext mem a = some 0 ∧ tl = a :=
  Iff.rfl

theorem chainFrom_cons {T : Type} (mem : List (Nat × Cell T)) (tl a b : Nat) (v : T)
    (rest : List (Nat × T)) :
    chainFrom mem tl a ((b, v) :: rest) ↔
      getNext mem a = some b ∧ getValue mem b = some (some v) ∧ chainFrom mem tl b rest :=
  Iff.rfl

theorem chainFrom_tl_mem {T : Type} {mem : List (Nat × Cell T)} {tl a : Nat}
    {cells : List (Nat × T)} (h : chainFrom mem tl a cells) :
    tl = a ∨ tl ∈ cells.map Prod.fst := by
  induction cells generalizing a with
  | nil => exact Or.inl h.2
  | cons bv rest ih =>
    obtain ⟨b, v⟩ := bv
    rcases ih h.2.2 with h' | h'
    · exact Or.inr (by simp [h'])
    · exact Or.inr (by simp [h'])

theorem chainFrom_tl_cell {T : Type} {mem : List (Nat × Cell T)} {tl a : Nat}
    {cells : List (Nat × T)} (h : chainFrom mem tl a cells) :
    ∃ tc : Cell T, getCell mem tl = some tc ∧ tc.next = 0 := by
  induction cells generalizing a with
  | nil =>
    obtain ⟨h1, h2⟩ := h
    subst h2
    unfold getNext at h1
    cases hg : getCell mem tl with
    | none => rw [hg] at h1; cases h1
    | some tc =>
      rw [hg] at h1
      exact ⟨tc, rfl, by simpa using h1⟩
  | cons bv rest ih =>
    obtain ⟨b, v⟩ := bv
    exact ih h.2.2

theorem chainFrom_congr {T : Type} {mem mem' : List (Nat × Cell T)} {tl a : Nat}
    {cells : List (Nat × T)}
    (hnext : ∀ x ∈ a :: cells.map Prod.fst, getNext mem' x = getNext mem x)
    (hval : ∀ x ∈ cells.map Prod.fst, getValue mem' x = getValue mem x)
    (h : chainFrom mem tl a cells) : chainFrom mem' tl a cells := by
  induction cells generalizing a with
  | nil => exact ⟨(hnext a (by simp)).trans h.1, h.2⟩
  | cons bv rest ih =>
    obtain ⟨b, v⟩ := bv
    refine ⟨(hnext a (by simp)).trans h.1, (hval b (by simp)).trans h.2.1, ?_⟩
    exact ih (fun x hx => hnext x (by simp only [List.map_cons, List.mem_cons] at hx ⊢; tauto))
      (fun x hx => hval x (by simp only [List.map_cons, List.mem_cons] at hx ⊢; tauto)) h.2.2

theorem chainFrom_snoc {T : Type} {mem : List (Nat × Cell T)} {tl a na : Nat} {v : T}
    {cells : List (Nat × T)} {tc : Cell T}
    (h : chainFrom mem tl a cells)
    (hnodup : (a :: cells.map Prod.fst).Nodup)
    (hna_spine : na ∉ a :: cells.map Prod.fst)
    (hna_mem : na ∉ mem.map Prod.fst)
    (htl : getCell mem tl = some tc) :
    chainFrom (setCell (mem ++ [(na, ⟨0, some v⟩)]) tl { tc with next := na }) na a
      (cells ++ [(na, v)]) := by
  have htl_mem : tl ∈ mem.map Prod.fst := getCell_mem_fst htl
  have htl_mem' : tl ∈ (mem ++ [(na, (⟨0, some v⟩ : Cell T))]).map Prod.fst := by
    simp only [List.map_append, List.mem_append]
    exact Or.inl htl_mem
  have hna_ne_tl : na ≠ tl := fun h' => hna_mem (h' ▸ htl_mem)
  induction cells generalizing a with
  | nil =>
    obtain ⟨h1, h2⟩ := h
    subst h2
    refine ⟨?_, ?_, ?_, rfl⟩
    · rw [getNext, getCell_setCell_self htl_mem']
      rfl
    · rw [getValue, getCell_setCell_ne hna_ne_tl, getCell_append_right hna_mem]
      rfl
    · rw [getNext, getCell_setCell_ne hna_ne_tl, getCell_append_right hna_mem]
      rfl
  | cons bv rest ih =>
    obtain ⟨b, v'⟩ := bv
    obtain ⟨h1, h2, h3⟩ := h
    have ha_ne_tl : a ≠ tl := by
      rcases chainFrom_tl_mem h3 with h' | h'
      · intro he
        rw [he, h'] at hnodup
        simp at hnodup
      · intro he
        rw [he] at hnodup
        have : tl ∈ ((b, v') :: rest).map Prod.fst := by simp [h']
        exact (List.nodup_cons.1 hnodup).1 this
    have ha_ne_na : a ≠ na := fun h' => hna_spine (by simp [h'])
    have hb_ne_na : b ≠ na := fun h' => hna_spine (by simp [h'])
    refine ⟨?_, ?_, ?_⟩
    · rw [getNext, getCell_setCell_ne (Ne.symm ha_ne_tl).symm,
        getCell_append_left ha_ne_na]
      exact h1
    · by_cases hb : b = tl
      · subst hb
        rw [getValue, getCell_setCell_self htl_mem']
        rw [getValue, htl] at h2
        simpa using h2
      · rw [getValue, getCell_setCell_ne (fun h' => hb h'), getCell_append_left hb_ne_na]
        exact h2
    · exact ih h3 ((List.nodup_cons.1 hnodup).2)
        (fun h' => hna_spine (by simp only [List.map_cons, List.mem_cons] at h' ⊢; tauto))

/-! ### Derived facts about represented states -/

theorem chainFrom_cells_sub {T : Type} {mem : List (Nat × Cell T)} {tl a : Nat}
    {cells : List (Nat × T)} (h : chainFrom mem tl a cells) :
    ∀ b ∈ cells.map Prod.fst, b ∈ mem.map Prod.fst := by
  induction cells generalizing a with
  | nil => intro b hb; cases hb
  | cons bv rest ih =>
    obtain ⟨b', v⟩ := bv
    intro b hb
    simp only [List.map_cons, List.mem_cons] at hb
    rcases hb with rfl | hb
    · obtain ⟨h1, h2, h3⟩ := h
      unfold getValue at h2
      cases hg : getCell mem b with
      | none => rw [hg] at h2; cases h2
      | some c => exact getCell_mem_fst hg
    · exact ih h.2.2 b hb

theorem QRep.spine_sub {T : Type} {s : ms_queue T} {cells : List (Nat × T)}
    (h : QRep s cells) :
    ∀ a ∈ s.head_ :: cells.map Prod.fst, a ∈ s.mem.map Prod.fst := by
  intro a ha
  rcases List.mem_cons.1 ha with rfl | ha
  · obtain ⟨hval, _⟩ := h
    unfold getValue at hval
    cases hg : getCell s.mem s.head_ with
    | none => rw [hg] at hval; cases hval
    | some c => exact getCell_mem_fst hg
  · exact chainFrom_cells_sub h.2.1 a ha

theorem QRep.cells_le {T : Type} {s : ms_queue T} {cells : List (Nat × T)}
    (h : QRep s cells) : cells.length + 1 ≤ s.mem.length := by
  have hsub := h.spine_sub
  have hnd := h.2.2.1
  have := (List.subperm_of_subset hnd hsub).length_le
  simpa using this

/-- Instruction trace of one successful `enqueue` call when the observed
tail `t` is the true last cell (the only case arising sequentially). -/
def enqTrace (t : Nat) : List Ev :=
  [Ev.loadTail t, Ev.pub false t, Ev.loadTail t, Ev.derefNext t, Ev.pub true 0,
   Ev.loadTail t, Ev.derefNext t, Ev.loadTail t, Ev.casNext t, Ev.casTail,
   Ev.pub false 0, Ev.pub true 0]

/-- Instruction trace of a `try_dequeue` call that observes an empty queue. -/
def deqTraceEmpty (h t : Nat) : List Ev :=
  [Ev.loadHead h, Ev.pub false h, Ev.loadHead h, Ev.loadTail t, Ev.derefNext h,
   Ev.pub true 0, Ev.loadHead h, Ev.derefNext h, Ev.pub false 0, Ev.pub true 0]

/-- Instruction trace of a successful `try_dequeue` call (`h` the dequeued
sentinel, `b` the cell whose payload is moved out). -/
def deqTraceOk (h t b : Nat) : List Ev :=
  [Ev.loadHead h, Ev.pub false h, Ev.loadHead h, Ev.loadTail t, Ev.derefNext h,
   Ev.pub true b, Ev.loadHead h, Ev.derefNext h, Ev.casHead, Ev.derefValue b,
   Ev.pub false 0, Ev.pub true 0]

/-- Instruction trace of an `empty()` call. -/
def emptyTrace (h : Nat) : List Ev :=
  [Ev.loadHead h, Ev.pub false h, Ev.loadHead h, Ev.derefNext h, Ev.pub false 0]

/-! ### Behaviour of the operations on represented states -/

theorem ms_queue.enqueue_spec {T : Type} {s : ms_queue T} {cells : List (Nat × T)}
    (h : QRep s cells) (v : T) :
    ∃ s', s.enqueue v = some (s', enqTrace s.tail_) ∧
      QRep s' (cells ++ [(s.nextAlloc, v)]) ∧
      s'.head_ = s.head_ ∧ s'.tail_ = s.nextAlloc ∧ s'.nextAlloc = s.nextAlloc + 1 ∧
      s'.mem.map Prod.fst = s.mem.map Prod.fst ++ [s.nextAlloc] := by
  obtain ⟨hval, hchain, hnodup, hbound, hmemnd, hmembound⟩ := h
  obtain ⟨tc, htl, htl0⟩ := chainFrom_tl_cell hchain
  have htl_spine : s.tail_ ∈ s.head_ :: cells.map Prod.fst := by
    rcases chainFrom_tl_mem hchain with h' | h' <;> simp [h']
  have htl_lt : s.tail_ < s.nextAlloc := (hbound _ htl_spine).2
  have htl_ne_na : s.tail_ ≠ s.nextAlloc := Nat.ne_of_lt htl_lt
  have hna_mem : s.nextAlloc ∉ s.mem.map Prod.fst :=
    fun h' => absurd (hmembound _ h').2 (lt_irrefl _)
  have hna_spine : s.nextAlloc ∉ s.head_ :: cells.map Prod.fst :=
    fun h' => absurd (hbound _ h').2 (lt_irrefl _)
  have hna_pos : 0 < s.nextAlloc :=
    Nat.lt_of_le_of_lt (Nat.zero_le _) htl_lt
  have hmemfst : (s.mem ++ [(s.nextAlloc, (⟨0, some v⟩ : Cell T))]).map Prod.fst
      = s.mem.map Prod.fst ++ [s.nextAlloc] := by simp
  have htl_mem0 : s.tail_ ∈ (s.mem ++ [(s.nextAlloc, (⟨0, some v⟩ : Cell T))]).map Prod.fst := by
    rw [hmemfst]
    exact List.mem_append.2 (Or.inl (getCell_mem_fst htl))
  have hna_ne : s.nextAlloc ≠ 0 := Nat.pos_iff_ne_zero.mp hna_pos
  have hhd_lt : s.head_ < s.nextAlloc := (hbound _ (by simp)).2
  have hhd_ne_na : s.head_ ≠ s.nextAlloc := Nat.ne_of_lt hhd_lt
  have hmapfst : (cells ++ [(s.nextAlloc, v)]).map Prod.fst
      = cells.map Prod.fst ++ [s.nextAlloc] := by simp
  refine ⟨⟨setCell (s.mem ++ [(s.nextAlloc, ⟨0, some v⟩)]) s.tail_ { tc with next := s.nextAlloc },
      s.head_, s.nextAlloc, s.nextAlloc + 1⟩, ?_, ?_, rfl, rfl, rfl, ?_⟩
  · unfold ms_queue.enqueue
    simp only []
    rw [enqueueLoop]
    simp only [getCell_append_left htl_ne_na, htl, htl0, enqTrace]
    rfl
  · refine ⟨?_, ?_, ?_, ?_, ?_, ?_⟩
    · show getValue (setCell (s.mem ++ [(s.nextAlloc, ⟨0, some v⟩)]) s.tail_
        { tc with next := s.nextAlloc }) s.head_ = some none
      by_cases hh : s.head_ = s.tail_
      · rw [getValue, hh, getCell_setCell_self htl_mem0]
        rw [getValue, hh, htl] at hval
        simpa using hval
      · rw [getValue, getCell_setCell_ne hh, getCell_append_left hhd_ne_na, ← getValue]
        exact hval
    · show chainFrom (setCell (s.mem ++ [(s.nextAlloc, ⟨0, some v⟩)]) s.tail_
        { tc with next := s.nextAlloc }) s.nextAlloc s.head_ (cells ++ [(s.nextAlloc, v)])
      exact chainFrom_snoc hchain hnodup hna_spine hna_mem htl
    · show (s.head_ :: (cells ++ [(s.nextAlloc, v)]).map Prod.fst).Nodup
      rw [hmapfst, ← List.cons_append]
      exact List.Nodup.append hnodup (List.nodup_singleton _)
        (by intro x hx hx'; simp at hx'; exact hna_spine (hx' ▸ hx))
    · show ∀ a ∈ s.head_ :: (cells ++ [(s.nextAlloc, v)]).map Prod.fst,
        a ≠ 0 ∧ a < s.nextAlloc + 1
      rw [hmapfst]
      intro a ha
      rcases List.mem_cons.1 ha with rfl | ha
      · exact ⟨(hbound _ (by simp)).1, Nat.lt_succ_of_lt hhd_lt⟩
      · rcases List.mem_append.1 ha with ha | ha
        · exact ⟨(hbound _ (by simp [ha])).1, Nat.lt_succ_of_lt (hbound _ (by simp [ha])).2⟩
        · simp only [List.mem_singleton] at ha
          subst ha
          exact ⟨hna_ne, Nat.lt_succ_self _⟩
    · show ((setCell (s.mem ++ [(s.nextAlloc, ⟨0, some v⟩)]) s.tail_
        { tc with next := s.nextAlloc }).map Prod.fst).Nodup
      rw [setCell_map_fst, hmemfst]
      exact List.Nodup.append hmemnd (List.nodup_singleton _)
        (by intro x hx hx'; simp at hx'; exact hna_mem (hx' ▸ hx))
    · show ∀ a ∈ (setCell (s.mem ++ [(s.nextAlloc, ⟨0, some v⟩)]) s.tail_
        { tc with next := s.nextAlloc }).map Prod.fst, a ≠ 0 ∧ a < s.nextAlloc + 1
      rw [setCell_map_fst, hmemfst]
      intro a ha
      rcases List.mem_append.1 ha with ha | ha
      · exact ⟨(hmembound _ ha).1, Nat.lt_succ_of_lt (hmembound _ ha).2⟩
      · simp only [List.mem_singleton] at ha
        subst ha
        exact ⟨hna_ne, Nat.lt_succ_self _⟩
  · show (setCell (s.mem ++ [(s.nextAlloc, ⟨0, some v⟩)]) s.tail_
      { tc with next := s.nextAlloc }).map Prod.fst = s.mem.map Prod.fst ++ [s.nextAlloc]
    rw [setCell_map_fst, hmemfst]

theorem ms_queue.try_dequeue_empty {T : Type} {s : ms_queue T} (h : QRep s []) (out : T) :
    s.try_dequeue out = some ⟨false, out, s, none, deqTraceEmpty s.head_ s.tail_⟩ := by
  obtain ⟨hval, hchain, _, _, _, _⟩ := h
  obtain ⟨h1, h2⟩ := hchain
  unfold getNext at h1
  cases hg : getCell s.mem s.head_ with
  | none => rw [hg] at h1; cases h1
  | some hc =>
    rw [hg] at h1
    have hc0 : hc.next = 0 := by simpa using h1
    unfold ms_queue.try_dequeue
    rw [dequeueLoop]
    simp only [hg, hc0, h2, deqTraceEmpty]
    simp

theorem ms_queue.try_dequeue_cons {T : Type} {s : ms_queue T} {b : Nat} {v : T}
    {rest : List (Nat × T)} (h : QRep s ((b, v) :: rest)) (out : T) :
    ∃ s', s.try_dequeue out = some ⟨true, v, s', some s.head_, deqTraceOk s.head_ s.tail_ b⟩ ∧
      QRep s' rest ∧ s'.head_ = b ∧ s'.tail_ = s.tail_ ∧ s'.nextAlloc = s.nextAlloc ∧
      s'.mem.map Prod.fst = s.mem.map Prod.fst := by
  obtain ⟨hval, hchain, hnodup, hbound, hmemnd, hmembound⟩ := h
  obtain ⟨h1, h2, h3⟩ := hchain
  unfold getNext at h1
  cases hg : getCell s.mem s.head_ with
  | none => rw [hg] at h1; cases h1
  | some hc =>
  rw [hg] at h1
  have hcnext : hc.next = b := by simpa using h1
  unfold getValue at h2
  cases hgb : getCell s.mem b with
  | none => rw [hgb] at h2; cases h2
  | some nc =>
  rw [hgb] at h2
  have hncv : nc.value = some v := by simpa using h2
  have htl_cells : s.tail_ ∈ ((b, v) :: rest).map Prod.fst := by
    rcases chainFrom_tl_mem h3 with h' | h' <;> simp [h']
  have hh_ne_t : s.head_ ≠ s.tail_ := by
    intro he
    exact (List.nodup_cons.1 hnodup).1 (he ▸ htl_cells)
  have hb_ne : b ≠ 0 := (hbound b (by simp)).1
  have hb_mem : b ∈ s.mem.map Prod.fst := getCell_mem_fst hgb
  have hnd_rest : (b :: rest.map Prod.fst).Nodup := by
    simpa using (List.nodup_cons.1 hnodup).2
  refine ⟨⟨setCell s.mem b { nc with value := none }, b, s.tail_, s.nextAlloc⟩,
    ?_, ?_, rfl, rfl, rfl, ?_⟩
  · unfold ms_queue.try_dequeue
    rw [dequeueLoop]
    simp only [hg, hcnext]
    rw [if_neg (by simpa using hh_ne_t), if_neg (by simpa using hb_ne)]
    simp only [hgb, hncv, deqTraceOk]
    simp
  · refine ⟨?_, ?_, ?_, ?_, ?_, ?_⟩
    · show getValue (setCell s.mem b { nc with value := none }) b = some none
      rw [getValue, getCell_setCell_self hb_mem]
      rfl
    · show chainFrom (setCell s.mem b { nc with value := none }) s.tail_ b rest
      refine chainFrom_congr ?_ ?_ h3
      · intro x hx
        by_cases hxb : x = b
        · subst hxb
          rw [getNext, getCell_setCell_self hb_mem, getNext, hgb]
          rfl
        · rw [getNext, getCell_setCell_ne hxb, getNext]
      · intro x hx
        have hxb : x ≠ b := by
          intro he
          exact (List.nodup_cons.1 hnd_rest).1 (he ▸ hx)
        rw [getValue, getCell_setCell_ne hxb, getValue]
    · exact hnd_rest
    · show ∀ a ∈ b :: rest.map Prod.fst, a ≠ 0 ∧ a < s.nextAlloc
      intro a ha
      refine hbound a ?_
      simp only [List.map_cons, List.mem_cons] at ha ⊢
      tauto
    · show ((setCell s.mem b { nc with value := none }).map Prod.fst).Nodup
      rw [setCell_map_fst]
      exact hmemnd
    · show ∀ a ∈ (setCell s.mem b { nc with value := none }).map Prod.fst,
        a ≠ 0 ∧ a < s.nextAlloc
      rw [setCell_map_fst]
      exact hmembound
  · show (setCell s.mem b { nc with value := none }).map Prod.fst = s.mem.map Prod.fst
    rw [setCell_map_fst]

theorem ms_queue.empty_spec {T : Type} {s : ms_queue T} {cells : List (Nat × T)}
    (h : QRep s cells) :
    s.empty = some (cells.isEmpty, s, emptyTrace s.head_) := by
  obtain ⟨hval, hchain, hnodup, hbound, _, _⟩ := h
  cases cells with
  | nil =>
    obtain ⟨h1, _⟩ := hchain
    unfold getNext at h1
    cases hg : getCell s.mem s.head_ with
    | none => rw [hg] at h1; cases h1
    | some hc =>
      rw [hg] at h1
      have hc0 : hc.next = 0 := by simpa using h1
      unfold ms_queue.empty
      simp [hg, hc0, emptyTrace]
  | cons bv rest =>
    obtain ⟨b, v⟩ := bv
    obtain ⟨h1, _, _⟩ := hchain
    unfold getNext at h1
    cases hg : getCell s.mem s.head_ with
    | none => rw [hg] at h1; cases h1
    | some hc =>
      rw [hg] at h1
      have hcb : hc.next = b := by simpa using h1
      have hb_ne : b ≠ 0 := (hbound b (by simp)).1
      unfold ms_queue.empty
      simp [hg, hcb, hb_ne, emptyTrace]

theorem QRep_init {T : Type} : QRep (ms_queue.init : ms_queue T) [] := by
  refine ⟨?_, ⟨?_, rfl⟩, ?_, ?_, ?_, ?_⟩ <;>
    simp [ms_queue.init, getValue, getNext, getCell, List.find?]

/-- Runs `enqueue` over a list of values, in order (N successive enqueues
by a single thread). -/
def enqueueAll {T : Type} (s : ms_queue T) : List T → Option (ms_queue T)
  | [] => some s
  | v :: vs =>
    match s.enqueue v with
    | none => none
    | some (s', _) => enqueueAll s' vs

/-- Runs `m` successive `try_dequeue` calls through one reused `out`
variable, collecting the payloads of the successful calls in order. -/
def dequeueN {T : Type} (s : ms_queue T) (out : T) : Nat → Option (List T × ms_queue T)
  | 0 => some ([], s)
  | m + 1 =>
    match s.try_dequeue out with
    | none => none
    | some r =>
      if r.ok then
        match dequeueN r.state r.out m with
        | none => none
        | some (acc, s') => some (r.out :: acc, s')
      else some ([], r.state)

theorem enqueueAll_spec {T : Type} {s : ms_queue T} {cells : List (Nat × T)}
    (h : QRep s cells) (vs : List T) :
    ∃ s' cells', enqueueAll s vs = some s' ∧ QRep s' cells' ∧
      cells'.map Prod.snd = cells.map Prod.snd ++ vs := by
  induction vs generalizing s cells with
  | nil => exact ⟨s, cells, rfl, h, by simp⟩
  | cons v vs ih =>
    obtain ⟨s1, heq, hq, -, -, -, -⟩ := ms_queue.enqueue_spec h v
    obtain ⟨s', cells', h1, h2, h3⟩ := ih hq
    refine ⟨s', cells', ?_, h2, ?_⟩
    · unfold enqueueAll
      rw [heq]
      exact h1
    · rw [h3]
      simp

theorem dequeueN_spec {T : Type} {s : ms_queue T} {cells : List (Nat × T)}
    (h : QRep s cells) (out : T) {m : Nat} (hm : m ≤ cells.length) :
    ∃ s', dequeueN s out m = some ((cells.map Prod.snd).take m, s') ∧
      QRep s' (cells.drop m) := by
  induction m generalizing s cells out with
  | zero => exact ⟨s, by simp [dequeueN], by simpa using h⟩
  | succ m ih =>
    cases cells with
    | nil => exact absurd hm (by simp)
    | cons bv rest =>
      obtain ⟨b, v⟩ := bv
      obtain ⟨s1, heq, hq, -, -, -, -⟩ := ms_queue.try_dequeue_cons h out
      obtain ⟨s', h1, h2⟩ := ih hq v (Nat.le_of_succ_le_succ hm)
      refine ⟨s', ?_, by simpa using h2⟩
      unfold dequeueN
      rw [heq]
      simp only [if_pos rfl]
      rw [h1]
      simp

/-- C1: sequential FIFO correctness of the queue.  On a fresh `ms_queue`
operated by a single thread, `N` enqueues of `v1..vN` followed by `M ≤ N`
dequeues yield exactly `v1..vM` in enqueue order (each successful
`try_dequeue` returns the oldest not-yet-dequeued value), and the values
still queued afterwards are `v(M+1)..vN`; in the special case
`N = M = 1`, `enqueue(v); try_dequeue(&out)` returns `true` with
`out == v` and leaves the queue empty. -/
theorem C1_sequential_fifo {T : Type} (vs : List T) (M : Nat) (out : T)
    (hM : M ≤ vs.length) :
    (∃ s₁ s₂ cells₂, enqueueAll ms_queue.init vs = some s₁ ∧
        dequeueN s₁ out M = some (vs.take M, s₂) ∧
        QRep s₂ cells₂ ∧ cells₂.map Prod.snd = vs.drop M) ∧
    (∀ v : T, ∃ s₁ evs r, (ms_queue.init : ms_queue T).enqueue v = some (s₁, evs) ∧
        s₁.try_dequeue out = some r ∧ r.ok = true ∧ r.out = v ∧
        r.state.empty = some (true, r.state, emptyTrace r.state.head_)) := by
  constructor
  · obtain ⟨s₁, cells₁, he, hq1, hmap⟩ := enqueueAll_spec QRep_init vs
    have hmap' : cells₁.map Prod.snd = vs := by simpa using hmap
    have hlen : M ≤ cells₁.length := by
      have := congrArg List.length hmap'
      simp at this
      omega
    obtain ⟨s₂, hd, hq2⟩ := dequeueN_spec hq1 out hlen
    refine ⟨s₁, s₂, cells₁.drop M, he, ?_, hq2, ?_⟩
    · rw [hd, hmap']
    · rw [← hmap', List.map_drop]
  · intro v
    obtain ⟨s₁, he, hq, -, -, -, -⟩ := ms_queue.enqueue_spec (QRep_init (T := T)) v
    obtain ⟨s₂, hd, hq2, -, -, -, -⟩ := ms_queue.try_dequeue_cons (by simpa using hq) out
    refine ⟨s₁, _, _, he, hd, rfl, rfl, ?_⟩
    simpa using ms_queue.empty_spec hq2

/-- Witness for C1: three enqueues, two dequeues, on payload type `Nat`. -/
theorem C1_sequential_fifo_witness :
    2 ≤ ([10, 20, 30] : List Nat).length ∧
    ((∃ s₁ s₂ cells₂, enqueueAll ms_queue.init [10, 20, 30] = some s₁ ∧
        dequeueN s₁ 0 2 = some (([10, 20, 30] : List Nat).take 2, s₂) ∧
        QRep s₂ cells₂ ∧ cells₂.map Prod.snd = ([10, 20, 30] : List Nat).drop 2) ∧
    (∀ v : Nat, ∃ s₁ evs r, (ms_queue.init : ms_queue Nat).enqueue v = some (s₁, evs) ∧
        s₁.try_dequeue 0 = some r ∧ r.ok = true ∧ r.out = v ∧
        r.state.empty = some (true, r.state, emptyTrace r.state.head_))) :=
  ⟨by decide, C1_sequential_fifo [10, 20, 30] 2 0 (by decide)⟩

/-- Queue states reachable from construction by any single-threaded
sequence of `enqueue` and `try_dequeue` calls. -/
inductive Reachable {T : Type} : ms_queue T → Prop
  | init : Reachable ms_queue.init
  | enq {s s' : ms_queue T} {v : T} {evs : List Ev} :
      Reachable s → s.enqueue v = some (s', evs) → Reachable s'
  | deq {s : ms_queue T} {out : T} {r : DeqResult T} :
      Reachable s → s.try_dequeue out = some r → Reachable r.state

theorem Reachable_QRep {T : Type} {s : ms_queue T} (h : Reachable s) :
    ∃ cells, QRep s cells := by
  induction h with
  | init => exact ⟨[], QRep_init⟩
  | enq hr heq ih =>
    obtain ⟨cells, hq⟩ := ih
    obtain ⟨s₁, heq', hq', -, -, -, -⟩ := ms_queue.enqueue_spec hq _
    rw [heq'] at heq
    injection heq with heq
    injection heq with h1 h2
    exact ⟨_, h1 ▸ hq'⟩
  | deq hr heq ih =>
    obtain ⟨cells, hq⟩ := ih
    cases cells with
    | nil =>
      rw [ms_queue.try_dequeue_empty hq _] at heq
      injection heq with heq
      exact ⟨[], heq ▸ hq⟩
    | cons bv rest =>
      obtain ⟨b, v⟩ := bv
      obtain ⟨s₂, heq', hq', -, -, -, -⟩ := ms_queue.try_dequeue_cons hq _
      rw [heq'] at heq
      injection heq with heq
      exact ⟨rest, heq ▸ hq'⟩

/-- C7: structural invariant of the queue.  In every reachable state the
list contains at least one cell; `head_` is non-null and points to the
sentinel, whose payload slot is empty; `head_->next`, if non-null, is the
first value-bearing cell of the queue; and a successful `try_dequeue`
retires only the prior head and makes the dequeued cell the new
empty-payload sentinel. -/
theorem C7_structural_invariant {T : Type} (s : ms_queue T) (h : Reachable s) :
    (s.mem ≠ [] ∧ s.head_ ≠ 0 ∧ getValue s.mem s.head_ = some none) ∧
    (∀ b, getNext s.mem s.head_ = some b → b ≠ 0 →
      ∃ v rest cells, QRep s cells ∧ cells = (b, v) :: rest ∧
        getValue s.mem b = some (some v)) ∧
    (∀ (out : T) r, s.try_dequeue out = some r → r.ok = true →
      r.retired = some s.head_ ∧ getNext s.mem s.head_ = some r.state.head_ ∧
      getValue r.state.mem r.state.head_ = some none) := by
  obtain ⟨cells, hq⟩ := Reachable_QRep h
  obtain ⟨hval, hchain, hnodup, hbound, hmemnd, hmembound⟩ := hq
  have hq : QRep s cells := ⟨hval, hchain, hnodup, hbound, hmemnd, hmembound⟩
  have hhd_mem : s.head_ ∈ s.mem.map Prod.fst := hq.spine_sub _ (by simp)
  refine ⟨⟨?_, (hbound _ (by simp)).1, hval⟩, ?_, ?_⟩
  · intro he
    rw [he] at hhd_mem
    cases hhd_mem
  · intro b hb hb0
    cases cells with
    | nil =>
      rw [hchain.1] at hb
      injection hb with hb
      exact absurd hb.symm hb0
    | cons bv rest =>
      obtain ⟨b', v⟩ := bv
      have hb' : b = b' := by
        rw [hchain.1] at hb
        injection hb with hb
        exact hb.symm
      subst hb'
      exact ⟨v, rest, _, hq, rfl, hchain.2.1⟩
  · intro out r heq hok
    cases cells with
    | nil =>
      rw [ms_queue.try_dequeue_empty hq out] at heq
      injection heq with heq
      rw [← heq] at hok
      cases hok
    | cons bv rest =>
      obtain ⟨b, v⟩ := bv
      obtain ⟨s₂, heq', hq', hh, -, -, -⟩ := ms_queue.try_dequeue_cons hq out
      rw [heq'] at heq
      injection heq with heq
      subst heq
      exact ⟨rfl, by rw [hchain.1, hh], hh ▸ hq'.1⟩

/-- Witness for C7 at the freshly constructed queue. -/
theorem C7_structural_invariant_witness :
    ((ms_queue.init : ms_queue Nat).mem ≠ [] ∧ (ms_queue.init : ms_queue Nat).head_ ≠ 0 ∧
      getValue (ms_queue.init : ms_queue Nat).mem (ms_queue.init : ms_queue Nat).head_ =
        some none) ∧
    (∀ b, getNext (ms_queue.init : ms_queue Nat).mem (ms_queue.init : ms_queue Nat).head_ =
        some b → b ≠ 0 →
      ∃ v rest cells, QRep (ms_queue.init : ms_queue Nat) cells ∧ cells = (b, v) :: rest ∧
        getValue (ms_queue.init : ms_queue Nat).mem b = some (some v)) ∧
    (∀ (out : Nat) r, (ms_queue.init : ms_queue Nat).try_dequeue out = some r → r.ok = true →
      r.retired = some (ms_queue.init : ms_queue Nat).head_ ∧
      getNext (ms_queue.init : ms_queue Nat).mem (ms_queue.init : ms_queue Nat).head_ =
        some r.state.head_ ∧
      getValue r.state.mem r.state.head_ = some none) :=
  C7_structural_invariant ms_queue.init Reachable.init

/-- C8: on an observed-empty queue (`head_->next == nullptr`),
`try_dequeue` returns `false`, leaves `out` completely untouched and the
queue unchanged, and retires nothing; and these are the only two outcomes:
either `false` on an observed-empty queue with everything untouched, or
`true` with the front payload moved into `out`. -/
theorem C8_empty_dequeue {T : Type} (s : ms_queue T) (cells : List (Nat × T)) (out : T)
    (h : QRep s cells) :
    (getNext s.mem s.head_ = some 0 →
      s.try_dequeue out = some ⟨false, out, s, none, deqTraceEmpty s.head_ s.tail_⟩) ∧
    (∀ r, s.try_dequeue out = some r →
      ((r.ok = false ∧ r.out = out ∧ r.state = s ∧ r.retired = none ∧
          getNext s.mem s.head_ = some 0) ∨
       (r.ok = true ∧ ∃ b v rest, cells = (b, v) :: rest ∧ r.out = v))) := by
  constructor
  · intro h0
    cases cells with
    | nil => exact ms_queue.try_dequeue_empty h out
    | cons bv rest =>
      obtain ⟨b, v⟩ := bv
      rw [h.2.1.1] at h0
      injection h0 with h0
      exact absurd h0 (h.2.2.2.1 b (by simp)).1
  · intro r heq
    cases cells with
    | nil =>
      rw [ms_queue.try_dequeue_empty h out] at heq
      injection heq with heq
      subst heq
      exact Or.inl ⟨rfl, rfl, rfl, rfl, h.2.1.1⟩
    | cons bv rest =>
      obtain ⟨b, v⟩ := bv
      obtain ⟨s₂, heq', -, -, -, -, -⟩ := ms_queue.try_dequeue_cons h out
      rw [heq'] at heq
      injection heq with heq
      subst heq
      exact Or.inr ⟨rfl, b, v, rest, rfl, rfl⟩

/-- Witness for C8 at the freshly constructed queue (which is empty). -/
theorem C8_empty_dequeue_witness :
    QRep (ms_queue.init : ms_queue Nat) [] ∧
    ((getNext (ms_queue.init : ms_queue Nat).mem (ms_queue.init : ms_queue Nat).head_ =
          some 0 →
      (ms_queue.init : ms_queue Nat).try_dequeue 7 =
        some ⟨false, 7, ms_queue.init, none,
          deqTraceEmpty (ms_queue.init : ms_queue Nat).head_
            (ms_queue.init : ms_queue Nat).tail_⟩) ∧
    (∀ r, (ms_queue.init : ms_queue Nat).try_dequeue 7 = some r →
      ((r.ok = false ∧ r.out = 7 ∧ r.state = ms_queue.init ∧ r.retired = none ∧
          getNext (ms_queue.init : ms_queue Nat).mem (ms_queue.init : ms_queue Nat).head_ =
            some 0) ∨
       (r.ok = true ∧ ∃ b v rest, ([] : List (Nat × Nat)) = (b, v) :: rest ∧ r.out = v)))) :=
  ⟨by decide, C8_empty_dequeue ms_queue.init [] 7 (by decide)⟩

/-- Final values of the calling thread's two hazard slots after replaying
the hazard-slot stores (`pub` events) of a trace, starting from the pair
`(s0, s1)`; `0` is the cleared (null) state. -/
def slotsAfter (s0 s1 : Nat) : List Ev → Nat × Nat
  | [] => (s0, s1)
  | Ev.pub false a :: evs => slotsAfter a s1 evs
  | Ev.pub true a :: evs => slotsAfter s0 a evs
  | _ :: evs => slotsAfter s0 s1 evs

/-- C10: `empty()` is observationally pure.  On any represented queue
state it modifies neither `head_` nor `tail_` nor any cell (the state
component of the result is the argument itself), on return the calling
thread's hazard slots are back to null, its boolean result is `true`
exactly when the queue holds no value cell, and a second call on the
returned state gives the same answer. -/
theorem C10_empty_pure {T : Type} (s : ms_queue T) (cells : List (Nat × T))
    (h : QRep s cells) :
    ∃ b, s.empty = some (b, s, emptyTrace s.head_) ∧
      (b = true ↔ cells = []) ∧
      slotsAfter 0 0 (emptyTrace s.head_) = (0, 0) ∧
      (∀ q' : ms_queue T, s.empty = some (b, q', emptyTrace s.head_) →
        q'.empty = s.empty) := by
  refine ⟨cells.isEmpty, ms_queue.empty_spec h, by simp [List.isEmpty_iff], rfl, ?_⟩
  intro q' h'
  rw [ms_queue.empty_spec h] at h'
  injection h' with h'
  injection h' with h1 h2
  injection h2 with h2
  rw [← h2]

/-- A concrete one-element queue state (sentinel at 1, one value cell at 2)
used as witness input. -/
def sampleQ : ms_queue Nat :=
  { mem := [(1, ⟨2, none⟩), (2, ⟨0, some 5⟩)], head_ := 1, tail_ := 2, nextAlloc := 3 }

/-- Witness for C10 on a represented one-element queue. -/
theorem C10_empty_pure_witness :
    QRep sampleQ [(2, 5)] ∧
    (∃ b, sampleQ.empty = some (b, sampleQ, emptyTrace sampleQ.head_) ∧
      (b = true ↔ ([(2, 5)] : List (Nat × Nat)) = []) ∧
      slotsAfter 0 0 (emptyTrace sampleQ.head_) = (0, 0) ∧
      (∀ q' : ms_queue Nat, sampleQ.empty = some (b, q', emptyTrace sampleQ.head_) →
        q'.empty = sampleQ.empty)) :=
  ⟨by decide, C10_empty_pure sampleQ [(2, 5)] (by decide)⟩

/-! ### Hazard domain and retirement engine (C1/C2 of the spec) -/

/-- Capacity of the registry (`hazard_domain::max_slots`). -/
def max_slots : Nat := 2048

/-- The process-wide `hazard_domain`: the slot array (association list
index ↦ published address, `0` both for never-written and cleared slots),
the free-list stack of returned indices (`free_slots`), and the monotone
high-water mark `next_index`.  The mutex guarding `free_slots` and
`next_index` needs no counterpart in the sequential embedding. -/
structure hazard_domain where
  slots : List (Nat × Nat)
  free_slots : List Nat
  next_index : Nat
deriving DecidableEq

/-- Value currently published in slot `i` (`slots[i].load(acquire)`). -/
def hazard_domain.slotVal (hd : hazard_domain) (i : Nat) : Nat :=
  match hd.slots.find? (fun p => p.1 == i) with
  | some p => p.2
  | none => 0

/-- `hazard_domain::acquire_slot()`: pop the free-list if non-empty,
otherwise issue `next_index++`; fails (`none` models the thrown
`std::runtime_error`) when the registry is exhausted. -/
def hazard_domain.acquire_slot (hd : hazard_domain) : Option (Nat × hazard_domain) :=
  match hd.free_slots with
  | id :: rest => some (id, { hd with free_slots := rest })
  | [] =>
    if max_slots ≤ hd.next_index then none
    else some (hd.next_index, { hd with next_index := hd.next_index + 1 })

/-- `hazard_domain::return_slot(id)`: clear the slot to null, then push
the index back on the free pool. -/
def hazard_domain.return_slot (hd : hazard_domain) (id : Nat) : hazard_domain :=
  { hd with slots := (id, 0) :: hd.slots, free_slots := id :: hd.free_slots }

/-- Per-thread `hp_owner`: the two slot indices the thread holds for its
lifetime with respect to the queue. -/
structure hp_owner where
  slot0 : Nat
  slot1 : Nat
deriving DecidableEq

/-- `hp_owner::hp_owner()`: acquire `slot0`, then `slot1`. -/
def hp_owner.mk_acquire (hd : hazard_domain) : Option (hp_owner × hazard_domain) :=
  match hd.acquire_slot with
  | none => none
  | some (s0, hd1) =>
    match hd1.acquire_slot with
    | none => none
    | some (s1, hd2) => some (⟨s0, s1⟩, hd2)

/-- `hp_owner::~hp_owner()`: return both slots. -/
def hp_owner.release (hp : hp_owner) (hd : hazard_domain) : hazard_domain :=
  (hd.return_slot hp.slot0).return_slot hp.slot1

/-- Well-formedness of the registry: the free pool holds distinct,
already-issued indices, and the high-water mark is within capacity. -/
def HDInv (hd : hazard_domain) : Prop :=
  hd.free_slots.Nodup ∧ (∀ i ∈ hd.free_slots, i < hd.next_index) ∧
    hd.next_index ≤ max_slots

instance (hd : hazard_domain) : Decidable (HDInv hd) :=
  inferInstanceAs (Decidable (_ ∧ _ ∧ _))

/-- Number of slot reservations currently held by threads. -/
def hazard_domain.liveCount (hd : hazard_domain) : Nat :=
  hd.next_index - hd.free_slots.length

theorem HDInv.free_le {hd : hazard_domain} (hinv : HDInv hd) :
    hd.free_slots.length ≤ hd.next_index := by
  have hsub : hd.free_slots ⊆ List.range hd.next_index :=
    fun i hi => List.mem_range.2 (hinv.2.1 i hi)
  simpa using (List.subperm_of_subset hinv.1 hsub).length_le

theorem hp_owner.release_slotVal (hp : hp_owner) (hd : hazard_domain) :
    (hp.release hd).slotVal hp.slot0 = 0 ∧ (hp.release hd).slotVal hp.slot1 = 0 := by
  unfold hp_owner.release hazard_domain.return_slot hazard_domain.slotVal
  constructor <;> by_cases h01 : hp.slot1 = hp.slot0 <;> simp [List.find?_cons, h01]

/-- Checks the hazard discipline over an instruction trace: each
dereference of a cell (`derefNext` / `derefValue` / `casNext`) must find
that cell's address currently published in one of the calling thread's
two hazard slots.  `s0`, `s1` hold the current slot contents (0 = null). -/
def hazCheck (s0 s1 : Nat) : List Ev → Bool
  | [] => true
  | Ev.pub false a :: evs => hazCheck a s1 evs
  | Ev.pub true a :: evs => hazCheck s0 a evs
  | Ev.derefNext a :: evs => (a == s0 || a == s1) && hazCheck s0 s1 evs
  | Ev.casNext a :: evs => (a == s0 || a == s1) && hazCheck s0 s1 evs
  | Ev.derefValue a :: evs => (a == s0 || a == s1) && hazCheck s0 s1 evs
  | _ :: evs => hazCheck s0 s1 evs

/-- Computation of the `hp_owner` constructor on an arbitrary domain. -/
theorem hp_owner.mk_acquire_eq (hd : hazard_domain) :
    hp_owner.mk_acquire hd =
      match hd.free_slots with
      | id :: id2 :: rest2 => some (⟨id, id2⟩, { hd with free_slots := rest2 })
      | [id] =>
        if max_slots ≤ hd.next_index then none
        else some (⟨id, hd.next_index⟩,
          { hd with free_slots := [], next_index := hd.next_index + 1 })
      | [] =>
        if max_slots ≤ hd.next_index then none
        else if max_slots ≤ hd.next_index + 1 then none
        else some (⟨hd.next_index, hd.next_index + 1⟩,
          { hd with next_index := hd.next_index + 2 }) := by
  unfold hp_owner.mk_acquire hazard_domain.acquire_slot
  rcases hd with ⟨slots, fs, ni⟩
  cases fs with
  | nil =>
    by_cases hg : max_slots ≤ ni
    · simp [hg]
    · by_cases hg2 : max_slots ≤ ni + 1 <;> simp [hg, hg2]
  | cons id rest =>
    cases rest with
    | nil => by_cases hg : max_slots ≤ ni <;> simp [hg]
    | cons id2 rest2 => simp

/-- C4: hazard discipline.  (i) A thread participating in queue
operations reserves exactly two distinct, in-capacity hazard slots for
its lifetime (`hp_owner` acquires them; its destructor returns both,
restoring the reservation count and leaving both slots null).  (ii) In
the traces of `enqueue`, `try_dequeue` and `empty`, no cell is
dereferenced unless that cell is, at that moment, published in one of
the calling thread's two hazard slots; in particular `enqueue` publishes
the observed tail in `slot0` and re-reads `tail_` (revalidation) before
reading `tail->next`. -/
theorem C4_hazard_discipline {T : Type} (hd : hazard_domain) (s : ms_queue T)
    (cells : List (Nat × T)) (v out : T) (hinv : HDInv hd) (hq : QRep s cells) :
    (∀ hp hd₂, hp_owner.mk_acquire hd = some (hp, hd₂) →
      hp.slot0 ≠ hp.slot1 ∧ hp.slot0 < max_slots ∧ hp.slot1 < max_slots ∧
      hd₂.liveCount = hd.liveCount + 2 ∧ (hp.release hd₂).liveCount = hd.liveCount ∧
      (hp.release hd₂).slotVal hp.slot0 = 0 ∧ (hp.release hd₂).slotVal hp.slot1 = 0) ∧
    (∀ s' evs, s.enqueue v = some (s', evs) →
      hazCheck 0 0 evs = true ∧
      ∃ rest, evs = Ev.loadTail s.tail_ :: Ev.pub false s.tail_ ::
        Ev.loadTail s.tail_ :: Ev.derefNext s.tail_ :: rest) ∧
    (∀ r, s.try_dequeue out = some r → hazCheck 0 0 r.trace = true) ∧
    (∀ b q' evs, s.empty = some (b, q', evs) → hazCheck 0 0 evs = true) := by
  obtain ⟨hnd, hlt, hcap⟩ := hinv
  have hfree_le : hd.free_slots.length ≤ hd.next_index := HDInv.free_le ⟨hnd, hlt, hcap⟩
  refine ⟨?_, ?_, ?_, ?_⟩
  · intro hp hd₂ hmk
    rw [hp_owner.mk_acquire_eq] at hmk
    cases hfs : hd.free_slots with
    | nil =>
      rw [hfs] at hmk
      simp only [] at hmk
      split at hmk
      · cases hmk
      · split at hmk
        · cases hmk
        · simp only [Option.some.injEq, Prod.mk.injEq] at hmk
          obtain ⟨h1, h2⟩ := hmk
          subst h1
          subst h2
          have hflen : hd.free_slots.length = 0 := by rw [hfs]; rfl
          refine ⟨?_, ?_, ?_, ?_, ?_,
            (hp_owner.release_slotVal _ _).1, (hp_owner.release_slotVal _ _).2⟩ <;>
            simp only [hp_owner.release, hazard_domain.return_slot, hazard_domain.liveCount,
              List.length_cons, List.length_nil] <;>
            omega
    | cons id rest =>
      rw [hfs] at hmk
      cases hrest : rest with
      | nil =>
        rw [hrest] at hmk
        simp only [] at hmk
        split at hmk
        · cases hmk
        · simp only [Option.some.injEq, Prod.mk.injEq] at hmk
          obtain ⟨h1, h2⟩ := hmk
          subst h1
          subst h2
          have hidlt : id < hd.next_index := hlt id (by rw [hfs]; simp)
          have hflen : hd.free_slots.length = 1 := by rw [hfs, hrest]; rfl
          refine ⟨?_, ?_, ?_, ?_, ?_,
            (hp_owner.release_slotVal _ _).1, (hp_owner.release_slotVal _ _).2⟩ <;>
            simp only [hp_owner.release, hazard_domain.return_slot, hazard_domain.liveCount,
              List.length_cons, List.length_nil] <;>
            omega
      | cons id2 rest2 =>
        rw [hrest] at hmk
        simp only [Option.some.injEq, Prod.mk.injEq] at hmk
        obtain ⟨h1, h2⟩ := hmk
        subst h1
        subst h2
        have hid : id ≠ id2 := by
          rw [hfs, hrest] at hnd
          exact fun he => (List.nodup_cons.1 hnd).1 (he ▸ List.mem_cons_self _ _)
        have hidlt : id < hd.next_index := hlt id (by rw [hfs]; simp)
        have hid2lt : id2 < hd.next_index := hlt id2 (by rw [hfs, hrest]; simp)
        have hflen : hd.free_slots.length = rest2.length + 2 := by rw [hfs, hrest]; simp
        refine ⟨hid, ?_, ?_, ?_, ?_,
          (hp_owner.release_slotVal _ _).1, (hp_owner.release_slotVal _ _).2⟩ <;>
          simp only [hp_owner.release, hazard_domain.return_slot, hazard_domain.liveCount,
            List.length_cons, List.length_nil] <;>
          omega
  · intro s' evs henq
    obtain ⟨s₁, heq, -, -, -, -, -⟩ := ms_queue.enqueue_spec hq v
    rw [heq] at henq
    injection henq with henq
    injection henq with h1 h2
    subst h2
    exact ⟨by simp [enqTrace, hazCheck], _, rfl⟩
  · intro r heq
    cases cells with
    | nil =>
      rw [ms_queue.try_dequeue_empty hq out] at heq
      injection heq with heq
      subst heq
      simp [deqTraceEmpty, hazCheck]
    | cons bv rest =>
      obtain ⟨b, v'⟩ := bv
      obtain ⟨s₂, heq', -, -, -, -, -⟩ := ms_queue.try_dequeue_cons hq out
      rw [heq'] at heq
      injection heq with heq
      subst heq
      simp [deqTraceOk, hazCheck]
  · intro b q' evs heq
    rw [ms_queue.empty_spec hq] at heq
    injection heq with heq
    injection heq with h1 h2
    injection h2 with h2 h3
    subst h3
    simp [emptyTrace, hazCheck]

/-- The freshly constructed process-wide hazard domain, used as witness
input. -/
def hd0 : hazard_domain := { slots := [], free_slots := [], next_index := 0 }

/-- Witness for C4: the fresh domain and the fresh queue. -/
theorem C4_hazard_discipline_witness :
    (HDInv hd0 ∧ QRep (ms_queue.init : ms_queue Nat) []) ∧
    ((∀ hp hd₂, hp_owner.mk_acquire hd0 = some (hp, hd₂) →
      hp.slot0 ≠ hp.slot1 ∧ hp.slot0 < max_slots ∧ hp.slot1 < max_slots ∧
      hd₂.liveCount = hd0.liveCount + 2 ∧ (hp.release hd₂).liveCount = hd0.liveCount ∧
      (hp.release hd₂).slotVal hp.slot0 = 0 ∧ (hp.release hd₂).slotVal hp.slot1 = 0) ∧
    (∀ s' evs, (ms_queue.init : ms_queue Nat).enqueue 1 = some (s', evs) →
      hazCheck 0 0 evs = true ∧
      ∃ rest, evs = Ev.loadTail (ms_queue.init : ms_queue Nat).tail_ ::
        Ev.pub false (ms_queue.init : ms_queue Nat).tail_ ::
        Ev.loadTail (ms_queue.init : ms_queue Nat).tail_ ::
        Ev.derefNext (ms_queue.init : ms_queue Nat).tail_ :: rest) ∧
    (∀ r, (ms_queue.init : ms_queue Nat).try_dequeue 0 = some r →
      hazCheck 0 0 r.trace = true) ∧
    (∀ b q' evs, (ms_queue.init : ms_queue Nat).empty = some (b, q', evs) →
      hazCheck 0 0 evs = true)) :=
  ⟨⟨by decide, by decide⟩,
    C4_hazard_discipline hd0 ms_queue.init [] 1 0 (by decide) (by decide)⟩

/-- Retirement threshold (`RetirementManager::threshold`). -/
def threshold : Nat := 64

/-- The global retired list (`GlobalRetirement`): a shared bag of cell
addresses guarded by a short mutex. -/
structure GlobalRetirement where
  list : List Nat
deriving DecidableEq

/-- `GlobalRetirement::add(v)`: splice a thread's local list onto the end
of the global one and clear the local list (the flush at thread exit). -/
def GlobalRetirement.add (g : GlobalRetirement) (v : List Nat) : GlobalRetirement :=
  ⟨g.list ++ v⟩

/-- `GlobalRetirement::steal_to(v)`: under a `try_to_lock` acquisition,
when the lock is obtained and the list is non-empty, splice the whole
global list onto the end of `v` and clear it.  `lockAvail` models whether
the try-lock succeeds (sequentially it always can; concurrent contention
makes it fail). -/
def GlobalRetirement.steal_to (g : GlobalRetirement) (v : List Nat) (lockAvail : Bool) :
    List Nat × GlobalRetirement :=
  if lockAvail && !g.list.isEmpty then (v ++ g.list, ⟨[]⟩) else (v, g)

/-- `GlobalRetirement::drain()`: delete every cell in the global list and
clear it; the freed addresses are returned alongside. -/
def GlobalRetirement.drain (g : GlobalRetirement) : GlobalRetirement × List Nat :=
  (⟨[]⟩, g.list)

/-- The hazard snapshot taken inside `scan()` under `m_slot`: the contents
of slots `0 .. next_index - 1` (null entries included, as in the code). -/
def snapshotOf (hd : hazard_domain) : List Nat :=
  (List.range hd.next_index).map hd.slotVal

/-- The non-null hazard pointers published at the moment of a scan. -/
def liveHazards (hd : hazard_domain) : List Nat :=
  (snapshotOf hd).filter (fun a => a != 0)

/-- `RetirementManager::scan()`: take the hazard snapshot; opportunistically
steal the global retired list into the local one; sort the snapshot
(`std::sort`); skip its null entries (`std::upper_bound(…, nullptr)` on
the sorted vector yields the suffix past the nulls); then erase — deleting
the cell — every local entry for which `std::binary_search` over that
sorted non-null range fails.  On a sorted range `std::binary_search` is
specified to test membership, rendered here as `contains`.  Returns the
kept local list, the global bag, and the freed addresses in order. -/
def RetirementManager.scan (hd : hazard_domain) (retired_list : List Nat)
    (glob : GlobalRetirement) (lockAvail : Bool) :
    List Nat × GlobalRetirement × List Nat :=
  let stolen := glob.steal_to retired_list lockAvail
  let merged := stolen.1
  let glob' := stolen.2
  let sorted := (snapshotOf hd).mergeSort (· ≤ ·)
  let live := sorted.dropWhile (· == 0)
  (merged.filter (fun a => live.contains a), glob',
   merged.filter (fun a => !live.contains a))

/-- `RetirementManager::push(n)`: append `n` to the calling thread's
retired list; when the list's size has reached the threshold, run
`scan()`. -/
def RetirementManager.push (hd : hazard_domain) (retired_list : List Nat)
    (glob : GlobalRetirement) (lockAvail : Bool) (n : Nat) :
    List Nat × GlobalRetirement × List Nat :=
  let rl := retired_list ++ [n]
  if threshold ≤ rl.length then RetirementManager.scan hd rl glob lockAvail
  else (rl, glob, [])

theorem mem_dropWhile_zero {l : List Nat} {a : Nat} (ha : a ≠ 0) :
    a ∈ l.dropWhile (· == 0) ↔ a ∈ l := by
  constructor
  · exact fun h => (List.dropWhile_sublist _).mem h
  · intro h
    induction l with
    | nil => cases h
    | cons x xs ih =>
      rw [List.dropWhile_cons]
      split
      · rcases List.mem_cons.1 h with rfl | hm
        · simp_all
        · exact ih hm
      · exact h

theorem live_contains_eq (hd : hazard_domain) {a : Nat} (ha : a ≠ 0) :
    (((snapshotOf hd).mergeSort (· ≤ ·)).dropWhile (· == 0)).contains a =
      (liveHazards hd).contains a := by
  have h1 : a ∈ ((snapshotOf hd).mergeSort (· ≤ ·)).dropWhile (· == 0) ↔
      a ∈ snapshotOf hd := by
    rw [mem_dropWhile_zero ha, (List.mergeSort_perm (snapshotOf hd) _).mem_iff]
  have h2 : a ∈ liveHazards hd ↔ a ∈ snapshotOf hd := by
    simp [liveHazards, List.mem_filter, ha]
  have hc : ∀ (l : List Nat), l.contains a = decide (a ∈ l) := by
    intro l
    simp [List.elem_iff]
  rw [hc, hc]
  exact decide_eq_decide.mpr (h1.trans h2.symm)

/-- C5: retirement engine.  `push(cell)` appends the cell to the calling
thread's retired list and runs `scan()` exactly when the list's size has
reached the threshold 64.  `scan()` merges the global retired list into
the local one exactly when the try-lock is available and that list is
non-empty, and partitions the resulting local list against the snapshot
of the non-null hazard pointers: every cell absent from the snapshot is
freed, every cell present in it is kept for later. -/
theorem C5_retirement_push_scan (hd : hazard_domain) (rl : List Nat)
    (glob : GlobalRetirement) (lockAvail : Bool) (n : Nat)
    (h0 : ∀ a ∈ rl ++ n :: glob.list, a ≠ 0) :
    (¬ threshold ≤ (rl ++ [n]).length →
      RetirementManager.push hd rl glob lockAvail n = (rl ++ [n], glob, [])) ∧
    (threshold ≤ (rl ++ [n]).length →
      RetirementManager.push hd rl glob lockAvail n =
        RetirementManager.scan hd (rl ++ [n]) glob lockAvail) ∧
    (∀ rl' g' freed,
      RetirementManager.scan hd (rl ++ [n]) glob lockAvail = (rl', g', freed) →
      ∃ merged,
        ((lockAvail = true ∧ glob.list ≠ [] ∧ merged = (rl ++ [n]) ++ glob.list ∧
            g' = ⟨[]⟩) ∨
         ((lockAvail = false ∨ glob.list = []) ∧ merged = rl ++ [n] ∧ g' = glob)) ∧
        rl' = merged.filter (fun a => (liveHazards hd).contains a) ∧
        freed = merged.filter (fun a => !(liveHazards hd).contains a)) := by
  refine ⟨?_, ?_, ?_⟩
  · intro hlen
    unfold RetirementManager.push
    rw [if_neg hlen]
  · intro hlen
    unfold RetirementManager.push
    rw [if_pos hlen]
  · intro rl' g' freed hscan
    unfold RetirementManager.scan GlobalRetirement.steal_to at hscan
    have hmem : ∀ a ∈ (rl ++ [n]) ++ glob.list, a ≠ 0 := by
      intro a ha
      refine h0 a ?_
      simp only [List.mem_append, List.mem_cons, List.mem_singleton] at ha ⊢
      tauto
    by_cases hsteal : lockAvail && !glob.list.isEmpty
    · rw [if_pos hsteal] at hscan
      simp only [Prod.mk.injEq] at hscan
      obtain ⟨hrl', hg', hfreed⟩ := hscan
      refine ⟨(rl ++ [n]) ++ glob.list, Or.inl ⟨?_, ?_, rfl, hg'.symm⟩, ?_, ?_⟩
      · have hs := hsteal
        rw [Bool.and_eq_true] at hs
        exact hs.1
      · have hs := hsteal
        rw [Bool.and_eq_true] at hs
        have hs2 := hs.2
        simpa [List.isEmpty_iff] using hs2
      · rw [← hrl']
        exact List.filter_congr fun a ha => by rw [live_contains_eq hd (hmem a ha)]
      · rw [← hfreed]
        exact List.filter_congr fun a ha => by rw [live_contains_eq hd (hmem a ha)]
    · rw [if_neg hsteal] at hscan
      simp only [Prod.mk.injEq] at hscan
      obtain ⟨hrl', hg', hfreed⟩ := hscan
      have hmem2 : ∀ a ∈ rl ++ [n], a ≠ 0 := by
        intro a ha
        refine hmem a ?_
        simp only [List.mem_append] at ha ⊢
        tauto
      refine ⟨rl ++ [n], Or.inr ⟨?_, rfl, hg'.symm⟩, ?_, ?_⟩
      · by_cases hla : lockAvail = true
        · right
          rw [hla] at hsteal
          have hge : glob.list.isEmpty = true := by
            revert hsteal
            cases glob.list.isEmpty <;> simp
          simpa [List.isEmpty_iff] using hge
        · exact Or.inl (by revert hla; cases lockAvail <;> simp)
      · rw [← hrl']
        exact List.filter_congr fun a ha => by rw [live_contains_eq hd (hmem2 a ha)]
      · rw [← hfreed]
        exact List.filter_congr fun a ha => by rw [live_contains_eq hd (hmem2 a ha)]

/-- A domain with one published hazard (slot 0 protecting address 5),
used as witness input. -/
def hd1 : hazard_domain := { slots := [(0, 5)], free_slots := [], next_index := 1 }

/-- Witness for C5 at a concrete domain, local list, and global list. -/
theorem C5_retirement_push_scan_witness :
    (∀ a ∈ [5, 9] ++ 3 :: (⟨[7]⟩ : GlobalRetirement).list, a ≠ 0) ∧
    ((¬ threshold ≤ ([5, 9] ++ [3]).length →
      RetirementManager.push hd1 [5, 9] ⟨[7]⟩ true 3 = ([5, 9] ++ [3], ⟨[7]⟩, [])) ∧
    (threshold ≤ ([5, 9] ++ [3]).length →
      RetirementManager.push hd1 [5, 9] ⟨[7]⟩ true 3 =
        RetirementManager.scan hd1 ([5, 9] ++ [3]) ⟨[7]⟩ true) ∧
    (∀ rl' g' freed,
      RetirementManager.scan hd1 ([5, 9] ++ [3]) ⟨[7]⟩ true = (rl', g', freed) →
      ∃ merged,
        ((true = true ∧ (⟨[7]⟩ : GlobalRetirement).list ≠ [] ∧
            merged = ([5, 9] ++ [3]) ++ (⟨[7]⟩ : GlobalRetirement).list ∧ g' = ⟨[]⟩) ∨
         ((true = false ∨ (⟨[7]⟩ : GlobalRetirement).list = []) ∧
            merged = [5, 9] ++ [3] ∧ g' = ⟨[7]⟩)) ∧
        rl' = merged.filter (fun a => (liveHazards hd1).contains a) ∧
        freed = merged.filter (fun a => !(liveHazards hd1).contains a))) :=
  ⟨by decide, C5_retirement_push_scan hd1 [5, 9] ⟨[7]⟩ true 3 (by decide)⟩

/-! ### The thread pool (`jthread_pool`) -/

/-- The error surfaced by `submit` after stop
(`std::runtime_error("jthread_pool stopped")`). -/
inductive PoolErr where
  | poolStopped
deriving DecidableEq

/-- State of a `jthread_pool` together with the reclamation state its
queue operations touch.  Tasks are opaque payloads of type `α` (the
copyable `std::function<void()>` envelopes); `executed` logs, in order,
the tasks workers have invoked; `retired_list` / `global_list` / `freed`
are the thread-local retired list, the global retired list, and the log
of deleted cells; `hd` is the hazard domain read by scans. -/
structure jthread_pool (α : Type) where
  q : ms_queue α
  stop_ : Bool
  wake_seq_ : Nat
  workers_ : Nat
  executed : List α
  retired_list : List Nat
  global_list : List Nat
  freed : List Nat
  hd : hazard_domain
deriving DecidableEq

/-- `jthread_pool(threads)`: `if (threads == 0) threads = 1;`, then spawn
the workers over a fresh queue. -/
def jthread_pool.mk_pool (α : Type) (threads : Nat) : jthread_pool α :=
  { q := ms_queue.init, stop_ := false, wake_seq_ := 0,
    workers_ := if threads = 0 then 1 else threads, executed := [],
    retired_list := [], global_list := [], freed := [], hd := hd0 }

/-- `jthread_pool::request_stop()`: under `submit_mutex_` then
`cv_mutex_`, store `stop_ := true` and publish a wake event
(`wake_seq_.fetch_add(1)`), then `cv_.notify_all()`. -/
def jthread_pool.request_stop {α : Type} (p : jthread_pool α) : jthread_pool α :=
  { p with stop_ := true, wake_seq_ := p.wake_seq_ + 1 }

/-- `jthread_pool::submit(f, args…)`: bind the call and wrap it in a
shared `packaged_task` (pure bookkeeping outside the pool state); then
under `submit_mutex_`: if `stop_` is set, throw (`PoolStopped`, state
unchanged, nothing enqueued); otherwise enqueue the envelope first and
then publish a wake event under `cv_mutex_`; finally `notify_one` and
return the future. -/
def jthread_pool.submit {α : Type} (p : jthread_pool α) (f : α) :
    Option (Except PoolErr Unit × jthread_pool α) :=
  if p.stop_ then some (.error .poolStopped, p)
  else
    match p.q.enqueue f with
    | none => none
    | some (q', _) =>
      some (.ok (), { p with q := q', wake_seq_ := p.wake_seq_ + 1 })

/-- `jthread_pool::size()`. -/
def jthread_pool.size {α : Type} (p : jthread_pool α) : Nat :=
  p.workers_

/-- C2: `submit` on a stopped pool reports `PoolStopped` to the caller and
performs no enqueue — the returned pool state (queue contents included) is
exactly the state before the call, so the submitted computation is never
handed to any worker. -/
theorem C2_submit_after_stop {α : Type} (p : jthread_pool α) (f : α)
    (hstop : p.stop_ = true) :
    p.submit f = some (.error .poolStopped, p) := by
  unfold jthread_pool.submit
  rw [hstop]
  rfl

/-- Witness for C2: a freshly constructed two-worker pool after
`request_stop`. -/
theorem C2_submit_after_stop_witness :
    ((jthread_pool.mk_pool Nat 2).request_stop.stop_ = true) ∧
    (jthread_pool.mk_pool Nat 2).request_stop.submit 5 =
      some (.error .poolStopped, (jthread_pool.mk_pool Nat 2).request_stop) :=
  ⟨rfl, C2_submit_after_stop (jthread_pool.mk_pool Nat 2).request_stop 5 rfl⟩

/-- The worker's inner `while (q_.try_dequeue(task)) task();` loop:
dequeue until the queue is observed empty, invoking each task
(`executed`); each successful dequeue retires the old sentinel through
`retire_or_delete_` → `RetirementManager::push` (sequentially the
try-lock of the steal is always available). -/
def worker_drain {α : Type} [Inhabited α] (p : jthread_pool α) :
    Nat → Option (jthread_pool α)
  | 0 => none
  | fuel + 1 =>
    match p.q.try_dequeue default with
    | none => none
    | some r =>
      if r.ok then
        let pushed :=
          match r.retired with
          | some c => RetirementManager.push p.hd p.retired_list ⟨p.global_list⟩ true c
          | none => (p.retired_list, ⟨p.global_list⟩, [])
        let p' : jthread_pool α :=
          { p with
              q := r.state, executed := p.executed ++ [r.out],
              retired_list := pushed.1, global_list := pushed.2.1.list,
              freed := p.freed ++ pushed.2.2 }
        worker_drain p' fuel
      else some { p with q := r.state }

/-- One iteration of `worker_loop_`: fast-path drain without locks; if
`stop_` is observed, drain the remaining tasks and exit (`true`);
otherwise block on `cv_` until `stop_` or `wake_seq_ != seen` and re-read
`seen := wake_seq_.load()`. -/
def worker_step {α : Type} [Inhabited α] (p : jthread_pool α) (seen : Nat) :
    Option (jthread_pool α × Nat × Bool) :=
  match worker_drain p (p.q.mem.length + 1) with
  | none => none
  | some p1 =>
    if p1.stop_ then
      match worker_drain p1 (p1.q.mem.length + 1) with
      | none => none
      | some p2 => some (p2, seen, true)
    else
      some (p1, p1.wake_seq_, false)

/-- Event log of the destructor's phases. -/
inductive DEvent where
  | stopSet
  | joinWorker (i : Nat)
  | drainRetired
deriving DecidableEq

/-- Joining one worker after stop was requested: the worker finishes the
fast-path drain, observes `stop_`, drains the remaining queued tasks and
returns; at thread exit the thread-local `RetirementManager` destructor
flushes its retired list to the global one (`global_retire().add`). -/
def join_worker {α : Type} [Inhabited α] (p : jthread_pool α) :
    Option (jthread_pool α) :=
  match worker_drain p (p.q.mem.length + 1) with
  | none => none
  | some p1 =>
    match worker_drain p1 (p1.q.mem.length + 1) with
    | none => none
    | some p2 =>
      some { p2 with
               retired_list := [],
               global_list := (GlobalRetirement.add ⟨p2.global_list⟩ p2.retired_list).list }

/-- `workers_.clear()`: join the workers in vector order `i, i+1, …`. -/
def joinFrom {α : Type} [Inhabited α] (p : jthread_pool α) (i : Nat) :
    Nat → Option (jthread_pool α × List DEvent)
  | 0 => some (p, [])
  | k + 1 =>
    match join_worker p with
    | none => none
    | some p1 =>
      match joinFrom p1 (i + 1) k with
      | none => none
      | some (p2, evs) => some (p2, DEvent.joinWorker i :: evs)

/-- `ms_queue::drain_retired()` (static façade): `global_retire().drain()`
deletes every cell in the global retired list. -/
def drain_retired_pool {α : Type} (p : jthread_pool α) : jthread_pool α :=
  { p with global_list := [], freed := p.freed ++ p.global_list }

/-- `jthread_pool::~jthread_pool()`: `request_stop();` then
`workers_.clear();` (joins all workers) then
`ms_queue<task_type>::drain_retired();`, with the event log of the three
phases in program order. -/
def jthread_pool.destructor {α : Type} [Inhabited α] (p : jthread_pool α) :
    Option (jthread_pool α × List DEvent) :=
  match joinFrom p.request_stop 0 p.workers_ with
  | none => none
  | some (p2, evs) =>
    some (drain_retired_pool p2, DEvent.stopSet :: evs ++ [DEvent.drainRetired])

theorem worker_drain_spec {α : Type} [Inhabited α] (p : jthread_pool α)
    (cells : List (Nat × α)) (h : QRep p.q cells) :
    ∀ {fuel : Nat}, cells.length < fuel →
    ∃ p', worker_drain p fuel = some p' ∧
      QRep p'.q [] ∧
      p'.executed = p.executed ++ cells.map Prod.snd ∧
      p'.stop_ = p.stop_ ∧ p'.wake_seq_ = p.wake_seq_ ∧ p'.workers_ = p.workers_ ∧
      p'.hd = p.hd ∧
      p'.q.mem.map Prod.fst = p.q.mem.map Prod.fst := by
  induction cells generalizing p with
  | nil =>
    intro fuel hf
    cases fuel with
    | zero => omega
    | succ fuel =>
      refine ⟨{ p with q := p.q }, ?_, h, by simp, rfl, rfl, rfl, rfl, rfl⟩
      rw [worker_drain, ms_queue.try_dequeue_empty h default]
      rfl
  | cons bv rest ih =>
    obtain ⟨b, v⟩ := bv
    intro fuel hf
    cases fuel with
    | zero => omega
    | succ fuel =>
      obtain ⟨s₂, heq, hq2, hh, ht, hn, hmap⟩ := ms_queue.try_dequeue_cons h default
      have hlt : rest.length < fuel := by
        simp only [List.length_cons] at hf
        omega
      obtain ⟨p', heq', hrep, hexec, hstop, hwake, hworkers, hhd, hmap'⟩ :=
        ih { p with
               q := s₂, executed := p.executed ++ [v],
               retired_list := (RetirementManager.push p.hd p.retired_list
                 ⟨p.global_list⟩ true p.q.head_).1,
               global_list := (RetirementManager.push p.hd p.retired_list
                 ⟨p.global_list⟩ true p.q.head_).2.1.list,
               freed := p.freed ++ (RetirementManager.push p.hd p.retired_list
                 ⟨p.global_list⟩ true p.q.head_).2.2 }
          hq2 hlt
      refine ⟨p', ?_, hrep, ?_, hstop, hwake, hworkers, hhd, hmap'.trans hmap⟩
      · rw [worker_drain, heq]
        exact heq'
      · rw [hexec]
        simp

theorem join_worker_spec {α : Type} [Inhabited α] (p : jthread_pool α)
    (cells : List (Nat × α)) (h : QRep p.q cells) :
    ∃ p', join_worker p = some p' ∧
      QRep p'.q [] ∧
      p'.executed = p.executed ++ cells.map Prod.snd ∧
      p'.stop_ = p.stop_ ∧ p'.wake_seq_ = p.wake_seq_ ∧ p'.workers_ = p.workers_ ∧
      p'.hd = p.hd ∧ p'.retired_list = [] ∧
      p'.q.mem.map Prod.fst = p.q.mem.map Prod.fst := by
  have hle : cells.length < p.q.mem.length + 1 := by
    have := QRep.cells_le h
    omega
  obtain ⟨p1, h1, hrep1, hexec1, hstop1, hwake1, hworkers1, hhd1, hmap1⟩ :=
    worker_drain_spec p cells h hle
  obtain ⟨p2, h2, hrep2, hexec2, hstop2, hwake2, hworkers2, hhd2, hmap2⟩ :=
    worker_drain_spec p1 [] hrep1
      (by simp : ([] : List (Nat × α)).length < p1.q.mem.length + 1)
  refine ⟨{ p2 with
              retired_list := [],
              global_list := (GlobalRetirement.add ⟨p2.global_list⟩ p2.retired_list).list },
    ?_, hrep2, ?_, hstop2.trans hstop1, hwake2.trans hwake1,
    hworkers2.trans hworkers1, hhd2.trans hhd1, rfl, hmap2.trans hmap1⟩
  · unfold join_worker
    simp only [h1, h2]
  · show p2.executed = p.executed ++ cells.map Prod.snd
    rw [hexec2, hexec1]
    simp

theorem joinFrom_empty_spec {α : Type} [Inhabited α] (p : jthread_pool α)
    (h : QRep p.q []) (i : Nat) :
    ∀ k, ∃ p', joinFrom p i k = some (p', (List.range' i k).map DEvent.joinWorker) ∧
      QRep p'.q [] ∧
      p'.executed = p.executed ∧
      p'.stop_ = p.stop_ ∧ p'.wake_seq_ = p.wake_seq_ ∧ p'.workers_ = p.workers_ ∧
      p'.hd = p.hd := by
  intro k
  induction k generalizing p i with
  | zero => exact ⟨p, rfl, h, rfl, rfl, rfl, rfl, rfl⟩
  | succ k ih =>
    obtain ⟨p1, h1, hrep1, hexec1, hstop1, hwake1, hworkers1, hhd1, -, -⟩ :=
      join_worker_spec p [] h
    obtain ⟨p', h2, hrep', hexec', hstop', hwake', hworkers', hhd'⟩ := ih p1 hrep1 (i + 1)
    refine ⟨p', ?_, hrep', ?_, hstop'.trans hstop1, hwake'.trans hwake1,
      hworkers'.trans hworkers1, hhd'.trans hhd1⟩
    · rw [joinFrom]
      simp only [h1, h2, List.range', List.map_cons]
    · rw [hexec', hexec1]
      simp

theorem joinFrom_spec {α : Type} [Inhabited α] (p : jthread_pool α)
    (cells : List (Nat × α)) (h : QRep p.q cells) (i : Nat) {k : Nat} (hk : 1 ≤ k) :
    ∃ p', joinFrom p i k = some (p', (List.range' i k).map DEvent.joinWorker) ∧
      QRep p'.q [] ∧
      p'.executed = p.executed ++ cells.map Prod.snd ∧
      p'.stop_ = p.stop_ ∧ p'.wake_seq_ = p.wake_seq_ ∧ p'.workers_ = p.workers_ ∧
      p'.hd = p.hd := by
  cases k with
  | zero => omega
  | succ k =>
    obtain ⟨p1, h1, hrep1, hexec1, hstop1, hwake1, hworkers1, hhd1, -, -⟩ :=
      join_worker_spec p cells h
    obtain ⟨p', h2, hrep', hexec', hstop', hwake', hworkers', hhd'⟩ :=
      joinFrom_empty_spec p1 hrep1 (i + 1) k
    refine ⟨p', ?_, hrep', ?_, hstop'.trans hstop1, hwake'.trans hwake1,
      hworkers'.trans hworkers1, hhd'.trans hhd1⟩
    · rw [joinFrom]
      simp only [h1, h2, List.range', List.map_cons]
    · rw [hexec', hexec1]

/-- C3: shutdown ordering of the destructor.  On a pool whose queue is
represented by `cells` (the still-queued tasks), the destructor performs,
in order: set the stop flag, join every worker in sequence — each worker
that observes stop drains the remaining queued tasks before exiting — and
only then, after all joins, calls `drain_retired()` exactly once.  On
return every task enqueued before the destructor ran has been executed,
the queue is empty and the global retired list has been drained. -/
theorem C3_destructor_order {α : Type} [Inhabited α] (p : jthread_pool α)
    (cells : List (Nat × α)) (h : QRep p.q cells) (hw : 1 ≤ p.workers_) :
    ∃ p', p.destructor = some (p',
        DEvent.stopSet :: (List.range p.workers_).map DEvent.joinWorker ++
          [DEvent.drainRetired]) ∧
      p'.executed = p.executed ++ cells.map Prod.snd ∧
      QRep p'.q [] ∧
      p'.global_list = [] ∧
      p'.stop_ = true ∧
      (DEvent.stopSet :: (List.range p.workers_).map DEvent.joinWorker ++
          [DEvent.drainRetired]).count DEvent.drainRetired = 1 ∧
      (DEvent.stopSet :: (List.range p.workers_).map DEvent.joinWorker ++
          [DEvent.drainRetired]).getLast? = some DEvent.drainRetired := by
  have hq1 : QRep p.request_stop.q cells := h
  obtain ⟨p2, h2, hrep2, hexec2, hstop2, hwake2, hworkers2, hhd2⟩ :=
    joinFrom_spec p.request_stop cells hq1 0 hw
  refine ⟨drain_retired_pool p2, ?_, hexec2, hrep2, rfl, hstop2, ?_, ?_⟩
  · unfold jthread_pool.destructor
    rw [h2]
    rw [List.range_eq_range']
  · have hz : ((List.range p.workers_).map DEvent.joinWorker).count DEvent.drainRetired
        = 0 := by
      rw [List.count_eq_zero]
      intro hmem
      obtain ⟨i, -, hi⟩ := List.mem_map.1 hmem
      cases hi
    show ((DEvent.stopSet :: (List.range p.workers_).map DEvent.joinWorker) ++
        [DEvent.drainRetired]).count DEvent.drainRetired = 1
    simp [List.count_append, List.count_cons, hz]
  · show ((DEvent.stopSet :: (List.range p.workers_).map DEvent.joinWorker) ++
        [DEvent.drainRetired]).getLast? = some DEvent.drainRetired
    exact List.getLast?_concat _

/-- Witness for C3 at a fresh two-worker pool. -/
theorem C3_destructor_order_witness :
    (QRep (jthread_pool.mk_pool Nat 2).q [] ∧ 1 ≤ (jthread_pool.mk_pool Nat 2).workers_) ∧
    (∃ p', (jthread_pool.mk_pool Nat 2).destructor = some (p',
        DEvent.stopSet ::
          (List.range (jthread_pool.mk_pool Nat 2).workers_).map DEvent.joinWorker ++
          [DEvent.drainRetired]) ∧
      p'.executed = (jthread_pool.mk_pool Nat 2).executed ++
        ([] : List (Nat × Nat)).map Prod.snd ∧
      QRep p'.q [] ∧
      p'.global_list = [] ∧
      p'.stop_ = true ∧
      (DEvent.stopSet ::
          (List.range (jthread_pool.mk_pool Nat 2).workers_).map DEvent.joinWorker ++
          [DEvent.drainRetired]).count DEvent.drainRetired = 1 ∧
      (DEvent.stopSet ::
          (List.range (jthread_pool.mk_pool Nat 2).workers_).map DEvent.joinWorker ++
          [DEvent.drainRetired]).getLast? = some DEvent.drainRetired) :=
  ⟨⟨by decide, by decide⟩,
    C3_destructor_order (jthread_pool.mk_pool Nat 2) [] (by decide) (by decide)⟩

theorem worker_drain_wake {α : Type} [Inhabited α] :
    ∀ (fuel : Nat) (p p' : jthread_pool α), worker_drain p fuel = some p' →
      p'.wake_seq_ = p.wake_seq_ := by
  intro fuel
  induction fuel with
  | zero => intro p p' h; cases h
  | succ fuel ih =>
    intro p p' h
    rw [worker_drain] at h
    cases heq : p.q.try_dequeue default with
    | none => rw [heq] at h; cases h
    | some r =>
      rw [heq] at h
      dsimp only at h
      by_cases hok : r.ok = true
      · rw [if_pos hok] at h
        have h3 := ih _ p' h
        exact h3
      · rw [if_neg hok] at h
        injection h with h
        subst h
        rfl

/-- A public operation or worker-loop step on the pool (`submit`,
`request_stop`, or one iteration of `worker_loop_` with the worker's
current `seen` snapshot). -/
inductive PoolOp (α : Type) where
  | submitOp (f : α)
  | requestStopOp
  | workerStepOp (seen : Nat)

/-- Applies one operation to the pool state. -/
def applyOp {α : Type} [Inhabited α] (p : jthread_pool α) :
    PoolOp α → Option (jthread_pool α)
  | .submitOp f => (p.submit f).map Prod.snd
  | .requestStopOp => some p.request_stop
  | .workerStepOp seen => (worker_step p seen).map Prod.fst

/-- Applies a sequence of operations in order. -/
def applyOps {α : Type} [Inhabited α] (p : jthread_pool α) :
    List (PoolOp α) → Option (jthread_pool α)
  | [] => some p
  | op :: ops =>
    match applyOp p op with
    | none => none
    | some p' => applyOps p' ops

/-- C6: `wake_seq_` is monotonically non-decreasing.  Every operation —
`submit` (whether it enqueues or fails with `PoolStopped`),
`request_stop`, and every worker-loop step — leaves `wake_seq_` greater
than or equal to its previous value, and hence so does any sequence of
such operations over the lifetime of the pool: no operation decreases or
resets the counter. -/
theorem C6_wake_seq_monotone {α : Type} [Inhabited α] :
    (∀ (p p' : jthread_pool α) (op : PoolOp α), applyOp p op = some p' →
      p.wake_seq_ ≤ p'.wake_seq_) ∧
    (∀ (ops : List (PoolOp α)) (p p' : jthread_pool α), applyOps p ops = some p' →
      p.wake_seq_ ≤ p'.wake_seq_) := by
  have hone : ∀ (p p' : jthread_pool α) (op : PoolOp α), applyOp p op = some p' →
      p.wake_seq_ ≤ p'.wake_seq_ := by
    intro p p' op h
    cases op with
    | submitOp f =>
      unfold applyOp jthread_pool.submit at h
      dsimp only at h
      by_cases hs : p.stop_ = true
      · rw [if_pos hs] at h
        injection h with h
        subst h
        exact Nat.le_refl _
      · rw [if_neg hs] at h
        cases henq : p.q.enqueue f with
        | none => rw [henq] at h; cases h
        | some qe =>
          rw [henq] at h
          simp only [Option.map_some] at h
          injection h with h
          subst h
          exact Nat.le_succ _
    | requestStopOp =>
      unfold applyOp at h
      dsimp only at h
      injection h with h
      subst h
      exact Nat.le_succ _
    | workerStepOp seen =>
      unfold applyOp worker_step at h
      dsimp only at h
      cases h1 : worker_drain p (p.q.mem.length + 1) with
      | none => rw [h1] at h; cases h
      | some p1 =>
        rw [h1] at h
        dsimp only at h
        have hw1 := worker_drain_wake _ _ _ h1
        by_cases hs : p1.stop_ = true
        · rw [if_pos hs] at h
          cases h2 : worker_drain p1 (p1.q.mem.length + 1) with
          | none => rw [h2] at h; cases h
          | some p2 =>
            rw [h2] at h
            dsimp only at h
            have hw2 := worker_drain_wake _ _ _ h2
            injection h with h
            subst h
            rw [hw2, hw1]
        · rw [if_neg hs] at h
          injection h with h
          subst h
          rw [hw1]
  refine ⟨hone, ?_⟩
  intro ops
  induction ops with
  | nil =>
    intro p p' h
    injection h with h
    subst h
    exact Nat.le_refl _
  | cons op ops ih =>
    intro p p' h
    unfold applyOps at h
    cases h1 : applyOp p op with
    | none => rw [h1] at h; cases h
    | some p1 =>
      rw [h1] at h
      exact Nat.le_trans (hone p p1 op h1) (ih p1 p' h)

/-- Witness for C6 on a concrete pool and operation. -/
theorem C6_wake_seq_monotone_witness :
    applyOp (jthread_pool.mk_pool Nat 1) (PoolOp.requestStopOp) =
      some (jthread_pool.mk_pool Nat 1).request_stop ∧
    (jthread_pool.mk_pool Nat 1).wake_seq_ ≤
      (jthread_pool.mk_pool Nat 1).request_stop.wake_seq_ :=
  ⟨rfl, (C6_wake_seq_monotone (α := Nat)).1 (jthread_pool.mk_pool Nat 1)
    (jthread_pool.mk_pool Nat 1).request_stop PoolOp.requestStopOp rfl⟩

/-- K successive calls of `request_stop()`. -/
def iterStop {α : Type} (p : jthread_pool α) : Nat → jthread_pool α
  | 0 => p
  | k + 1 => (iterStop p k).request_stop

/-- Observational equality of pool states: equality in every field a
public operation's behaviour can depend on or expose — everything except
the raw value of the `wake_seq_` event counter (workers compare it only
for inequality against their own `seen` snapshot). -/
def ObsEq {α : Type} (p q : jthread_pool α) : Prop :=
  p.q = q.q ∧ p.stop_ = q.stop_ ∧ p.workers_ = q.workers_ ∧
  p.executed = q.executed ∧ p.retired_list = q.retired_list ∧
  p.global_list = q.global_list ∧ p.freed = q.freed ∧ p.hd = q.hd

theorem ObsEq.rfl' {α : Type} (p : jthread_pool α) : ObsEq p p :=
  ⟨rfl, rfl, rfl, rfl, rfl, rfl, rfl, rfl⟩

theorem ObsEq.trans' {α : Type} {p q r : jthread_pool α}
    (h1 : ObsEq p q) (h2 : ObsEq q r) : ObsEq p r :=
  ⟨h1.1.trans h2.1, h1.2.1.trans h2.2.1, h1.2.2.1.trans h2.2.2.1,
    h1.2.2.2.1.trans h2.2.2.2.1, h1.2.2.2.2.1.trans h2.2.2.2.2.1,
    h1.2.2.2.2.2.1.trans h2.2.2.2.2.2.1, h1.2.2.2.2.2.2.1.trans h2.2.2.2.2.2.2.1,
    h1.2.2.2.2.2.2.2.trans h2.2.2.2.2.2.2.2⟩

/-- Lifts `ObsEq` to optional results (model-stuckness must agree). -/
def ObsEqO {α : Type} : Option (jthread_pool α) → Option (jthread_pool α) → Prop
  | none, none => True
  | some p, some q => ObsEq p q
  | _, _ => False

/-- Lifts `ObsEq` to optional results paired with event logs: the states
are observationally equal and the logs are identical. -/
def ObsEqOE {α : Type} :
    Option (jthread_pool α × List DEvent) → Option (jthread_pool α × List DEvent) → Prop
  | none, none => True
  | some (p, e), some (q, e') => ObsEq p q ∧ e = e'
  | _, _ => False

theorem worker_drain_frame {α : Type} [Inhabited α] :
    ∀ (fuel : Nat) (p q : jthread_pool α), ObsEq p q →
      ObsEqO (worker_drain p fuel) (worker_drain q fuel) := by
  intro fuel
  induction fuel with
  | zero => intro p q h; trivial
  | succ fuel ih =>
    intro p q h
    obtain ⟨hq, hstop, hworkers, hexec, hret, hglob, hfreed, hhd⟩ := h
    rw [worker_drain, worker_drain, ← hq]
    cases heq : p.q.try_dequeue default with
    | none => trivial
    | some r =>
      dsimp only
      by_cases hok : r.ok = true
      · rw [if_pos hok, if_pos hok]
        rw [hexec, hret, hglob, hfreed, hhd, hstop, hworkers]
        exact ih _ _ ⟨rfl, rfl, rfl, rfl, rfl, rfl, rfl, rfl⟩
      · rw [if_neg hok, if_neg hok]
        exact ⟨rfl, hstop, hworkers, hexec, hret, hglob, hfreed, hhd⟩

theorem join_worker_frame {α : Type} [Inhabited α] (p q : jthread_pool α) (h : ObsEq p q) :
    ObsEqO (join_worker p) (join_worker q) := by
  have hq := h.1
  have h1 := worker_drain_frame (p.q.mem.length + 1) p q h
  unfold join_worker
  rw [← hq]
  cases hp1 : worker_drain p (p.q.mem.length + 1) with
  | none =>
    rw [hp1] at h1
    cases hq1 : worker_drain q (p.q.mem.length + 1) with
    | none => trivial
    | some q1 => rw [hq1] at h1; cases h1
  | some p1 =>
    rw [hp1] at h1
    cases hq1 : worker_drain q (p.q.mem.length + 1) with
    | none => rw [hq1] at h1; cases h1
    | some q1 =>
      rw [hq1] at h1
      dsimp only
      rw [← h1.1]
      have h2 := worker_drain_frame (p1.q.mem.length + 1) p1 q1 h1
      cases hp2 : worker_drain p1 (p1.q.mem.length + 1) with
      | none =>
        rw [hp2] at h2
        cases hq2 : worker_drain q1 (p1.q.mem.length + 1) with
        | none => trivial
        | some q2 => rw [hq2] at h2; cases h2
      | some p2 =>
        rw [hp2] at h2
        cases hq2 : worker_drain q1 (p1.q.mem.length + 1) with
        | none => rw [hq2] at h2; cases h2
        | some q2 =>
          rw [hq2] at h2
          dsimp only
          obtain ⟨h2q, h2stop, h2workers, h2exec, h2ret, h2glob, h2freed, h2hd⟩ := h2
          exact ⟨h2q, h2stop, h2workers, h2exec, rfl,
            by show (GlobalRetirement.add ⟨p2.global_list⟩ p2.retired_list).list =
                 (GlobalRetirement.add ⟨q2.global_list⟩ q2.retired_list).list
               rw [h2ret, h2glob],
            h2freed, h2hd⟩

theorem joinFrom_frame {α : Type} [Inhabited α] :
    ∀ (k i : Nat) (p q : jthread_pool α), ObsEq p q →
      ObsEqOE (joinFrom p i k) (joinFrom q i k) := by
  intro k
  induction k with
  | zero => intro i p q h; exact ⟨h, rfl⟩
  | succ k ih =>
    intro i p q h
    rw [joinFrom, joinFrom]
    have h1 := join_worker_frame p q h
    cases hp1 : join_worker p with
    | none =>
      rw [hp1] at h1
      cases hq1 : join_worker q with
      | none => trivial
      | some q1 => rw [hq1] at h1; cases h1
    | some p1 =>
      rw [hp1] at h1
      cases hq1 : join_worker q with
      | none => rw [hq1] at h1; cases h1
      | some q1 =>
        rw [hq1] at h1
        dsimp only
        have h2 := ih (i + 1) p1 q1 h1
        cases hp2 : joinFrom p1 (i + 1) k with
        | none =>
          rw [hp2] at h2
          cases hq2 : joinFrom q1 (i + 1) k with
          | none => trivial
          | some y =>
            obtain ⟨q2, e'⟩ := y
            rw [hq2] at h2
            cases h2
        | some x =>
          obtain ⟨p2, e⟩ := x
          rw [hp2] at h2
          cases hq2 : joinFrom q1 (i + 1) k with
          | none => rw [hq2] at h2; cases h2
          | some y =>
            obtain ⟨q2, e'⟩ := y
            rw [hq2] at h2
            obtain ⟨hobs, he⟩ := h2
            subst he
            exact ⟨hobs, rfl⟩

theorem destructor_frame {α : Type} [Inhabited α] (p q : jthread_pool α) (h : ObsEq p q) :
    ObsEqOE p.destructor q.destructor := by
  have hw : p.workers_ = q.workers_ := h.2.2.1
  have hrs : ObsEq p.request_stop q.request_stop :=
    ⟨h.1, rfl, h.2.2.1, h.2.2.2.1, h.2.2.2.2.1, h.2.2.2.2.2.1,
      h.2.2.2.2.2.2.1, h.2.2.2.2.2.2.2⟩
  unfold jthread_pool.destructor
  rw [← hw]
  have h1 := joinFrom_frame p.workers_ 0 p.request_stop q.request_stop hrs
  cases hp1 : joinFrom p.request_stop 0 p.workers_ with
  | none =>
    rw [hp1] at h1
    cases hq1 : joinFrom q.request_stop 0 p.workers_ with
    | none => trivial
    | some y =>
      obtain ⟨q2, e'⟩ := y
      rw [hq1] at h1
      cases h1
  | some x =>
    obtain ⟨p2, e⟩ := x
    rw [hp1] at h1
    cases hq1 : joinFrom q.request_stop 0 p.workers_ with
    | none => rw [hq1] at h1; cases h1
    | some y =>
      obtain ⟨q2, e'⟩ := y
      rw [hq1] at h1
      obtain ⟨hobs, he⟩ := h1
      subst he
      dsimp only
      refine ⟨⟨hobs.1, hobs.2.1, hobs.2.2.1, hobs.2.2.2.1, hobs.2.2.2.2.1, rfl, ?_,
        hobs.2.2.2.2.2.2.2⟩, rfl⟩
      show p2.freed ++ p2.global_list = q2.freed ++ q2.global_list
      rw [hobs.2.2.2.2.2.2.1, hobs.2.2.2.2.2.1]

theorem iterStop_stop {α : Type} (p : jthread_pool α) :
    ∀ {K : Nat}, 1 ≤ K → (iterStop p K).stop_ = true := by
  intro K hK
  cases K with
  | zero => omega
  | succ K => rfl

theorem iterStop_obsEq {α : Type} (p : jthread_pool α) :
    ∀ K, 1 ≤ K → ObsEq (iterStop p K) p.request_stop := by
  intro K
  induction K with
  | zero => intro h; omega
  | succ K ih =>
    intro _
    cases K with
    | zero => exact ObsEq.rfl' _
    | succ K' =>
      have hih := ih (Nat.succ_le_succ (Nat.zero_le _))
      have hs : (iterStop p (K' + 1)).stop_ = true :=
        iterStop_stop p (Nat.succ_le_succ (Nat.zero_le _))
      exact ObsEq.trans'
        (⟨rfl, hs.symm, rfl, rfl, rfl, rfl, rfl, rfl⟩ :
          ObsEq (iterStop p (K' + 1)).request_stop (iterStop p (K' + 1))) hih

/-- C9: `request_stop()` is idempotent.  After `K ≥ 1` calls the stop flag
is set exactly as after one call, the resulting states are
observationally equal (they can differ only in the raw value of the
event counter), and every subsequent public operation behaves
identically: `submit` fails with `PoolStopped` leaving each state
untouched, `size()` agrees, and the destructor produces the same event
log and observationally equal final states. -/
theorem C9_request_stop_idempotent {α : Type} [Inhabited α] (p : jthread_pool α)
    (K : Nat) (hK : 1 ≤ K) :
    (iterStop p K).stop_ = true ∧ (iterStop p 1).stop_ = true ∧
    ObsEq (iterStop p K) (iterStop p 1) ∧
    (∀ f : α, (iterStop p K).submit f = some (.error .poolStopped, iterStop p K) ∧
      (iterStop p 1).submit f = some (.error .poolStopped, iterStop p 1)) ∧
    (iterStop p K).size = (iterStop p 1).size ∧
    ObsEqOE (iterStop p K).destructor (iterStop p 1).destructor := by
  have h1 : iterStop p 1 = p.request_stop := rfl
  have hsK : (iterStop p K).stop_ = true := iterStop_stop p hK
  have hobs : ObsEq (iterStop p K) (iterStop p 1) := by
    rw [h1]
    exact iterStop_obsEq p K hK
  refine ⟨hsK, rfl, hobs, ?_, hobs.2.2.1, destructor_frame _ _ hobs⟩
  intro f
  exact ⟨C2_submit_after_stop _ f hsK, C2_submit_after_stop _ f rfl⟩

/-- Witness for C9: three stops versus one on a fresh two-worker pool. -/
theorem C9_request_stop_idempotent_witness :
    1 ≤ 3 ∧
    ((iterStop (jthread_pool.mk_pool Nat 2) 3).stop_ = true ∧
     (iterStop (jthread_pool.mk_pool Nat 2) 1).stop_ = true ∧
     ObsEq (iterStop (jthread_pool.mk_pool Nat 2) 3) (iterStop (jthread_pool.mk_pool Nat 2) 1) ∧
     (∀ f : Nat, (iterStop (jthread_pool.mk_pool Nat 2) 3).submit f =
         some (.error .poolStopped, iterStop (jthread_pool.mk_pool Nat 2) 3) ∧
       (iterStop (jthread_pool.mk_pool Nat 2) 1).submit f =
         some (.error .poolStopped, iterStop (jthread_pool.mk_pool Nat 2) 1)) ∧
     (iterStop (jthread_pool.mk_pool Nat 2) 3).size =
       (iterStop (jthread_pool.mk_pool Nat 2) 1).size ∧
     ObsEqOE (iterStop (jthread_pool.mk_pool Nat 2) 3).destructor
       (iterStop (jthread_pool.mk_pool Nat 2) 1).destructor) :=
  ⟨by decide, C9_request_stop_idempotent (jthread_pool.mk_pool Nat 2) 3 (by decide)⟩
